import Mathlib

/-!
Verification development for the RRT / RRT* interactive path-planner engine
(`src/services/rrt.ts` and the geometry helpers in `src/utils/geo.ts`).

The source is TypeScript working on IEEE-754 doubles.  The embedding uses exact
rational arithmetic and is parametric in a `Geo` record supplying the two
real-valued geometric primitives that are not rational-definable:

* `dist p q` — the source's Euclidean distance `Math.sqrt((Δx)² + (Δy)²)`;
* `dir p q`  — the source's unit direction `(cos θ, sin θ)` with
  `θ = atan2(q.y - p.y, q.x - p.x)`, used only inside `steer`.

Theorems about the engine assume only properties that the Euclidean functions
satisfy (nonnegativity of `dist`, `dist p p = 0`), so they hold in particular
for the Euclidean instantiation.  Concrete executions (witnesses and
counterexamples) place every point on the horizontal line `y = 0` and use
`dist p q = |p.x - q.x| + |p.y - q.y|`; on such collinear configurations this
coincides exactly with the source's Euclidean distance (√((Δx)² + 0²) = |Δx|),
and with small integer coordinates the source's double arithmetic is itself
exact, so these runs compute precisely what the TypeScript program computes.

Randomness: `stepMicro`'s SAMPLE state draws `Math.random()` twice (the
goal-bias coin and the uniform sample point).  The embedding threads the two
draws in as oracle arguments `coin : Bool` (the outcome of
`Math.random() < goalBias`) and `u : Point` (the uniform sample); theorems
quantify over all oracle values.
-/

set_option linter.unusedVariables false

namespace RRT

/-- A 2-D point, as in `types.ts` / `geo.ts`. -/
structure Point where
  x : ℚ
  y : ℚ
  deriving DecidableEq, Repr, Inhabited

/-- An axis-aligned rectangular obstacle `{x, y, w, h}`. -/
structure Obstacle where
  x : ℚ
  y : ℚ
  w : ℚ
  h : ℚ
  deriving DecidableEq, Repr, Inhabited

/-- A tree node, as in `types.ts` (fields exactly as used by `rrt.ts`). -/
structure Node where
  id : ℕ
  x : ℚ
  y : ℚ
  parentId : Option ℕ
  cost : ℚ
  children : List ℕ
  deriving DecidableEq, Repr, Inhabited

/-- The real-valued geometric primitives of `geo.ts`, abstracted as exact
rational-valued functions (see the file header). -/
structure Geo where
  dist : Point → Point → ℚ
  dir : Point → Point → ℚ × ℚ

/-- The position of a node, viewed as a `Point` (nodes are passed directly to
`dist` / `checkCollision` in the source, which read only `x` and `y`). -/
def pos (n : Node) : Point := ⟨n.x, n.y⟩

/-- Solver configuration, as in `types.ts` (field set as used by `rrt.ts`). -/
structure SolverParams where
  stepSize : ℚ
  maxIterations : ℕ
  goalBias : ℚ
  searchRadius : ℚ
  deriving DecidableEq, Repr, Inhabited

/-- The algorithm variant. -/
inductive AlgorithmType where
  | RRT
  | RRTStar
  deriving DecidableEq, Repr, Inhabited

/-- The micro-state tag of the planner state machine (`CodeStep` in
`types.ts`, with exactly the eight values `rrt.ts` switches over). -/
inductive CodeStep where
  | SAMPLE
  | NEAREST
  | STEER
  | COLLISION_CHECK
  | NEIGHBORS
  | CHOOSE_PARENT
  | ADD_NODE
  | REWIRE
  deriving DecidableEq, Repr, Inhabited

/-- The planner (`class RRTTree` in `rrt.ts`): the node store plus the
configuration and the transient scratch state used for visualization. -/
structure RRTTree where
  nodes : List Node
  width : ℚ
  height : ℚ
  start : Point
  goal : Point
  obstacles : List Obstacle
  params : SolverParams
  goalNodeId : Option ℕ
  algorithm : AlgorithmType
  microState : CodeStep
  tempSample : Option Point
  tempNearestNode : Option Node
  tempNewPoint : Option Point
  tempNeighbors : List ℕ
  tempBestParent : Option ℕ
  deriving DecidableEq, Repr, Inhabited

/-- Store lookup `this.nodes[i]`.  Out-of-range access (which in the source
would produce `undefined` and then crash on field access) yields the default
node; every theorem below only ever reads in-range indices. -/
def nd (nodes : List Node) (i : ℕ) : Node := nodes.getD i default

/-! ## Geometry and collision (`geo.ts`) -/

/-- `pointInObstacles`: whether `p` lies inside (boundary included) some
obstacle of the set. -/
def pointInObstacles (p : Point) (obstacles : List Obstacle) : Bool :=
  obstacles.any fun obs =>
    decide (obs.x ≤ p.x ∧ p.x ≤ obs.x + obs.w ∧ obs.y ≤ p.y ∧ p.y ≤ obs.y + obs.h)

/-- `steer(from, to, stepSize)`: `to` itself when within `stepSize`; otherwise
the point at `stepSize` from `from` in the direction of `to` (the direction
cosines are supplied by `G.dir`, see the file header). -/
def steer (G : Geo) (p q : Point) (stepSize : ℚ) : Point :=
  if G.dist p q ≤ stepSize then q
  else ⟨p.x + stepSize * (G.dir p q).1, p.y + stepSize * (G.dir p q).2⟩

/-- `lineIntersectsObstacle(p1, p2, obstacle)`: fast axis-aligned bounding-box
reject, then sampling of the segment every 5 units.

The sampled loop runs `i` from `0` to `steps = Math.ceil(d / 5)` and tests the
point at parameter `t = i / steps`.  When `steps = 0` (a zero-length segment),
`t` is the IEEE-754 value `0/0 = NaN`, every comparison against `NaN` is
`false`, and the loop finds no hit; when `steps < 0` the loop body never runs.
The `steps ≤ 0` branch below models both cases directly. -/
def lineIntersectsObstacle (G : Geo) (p1 p2 : Point) (obstacle : Obstacle) : Bool :=
  let minX := min p1.x p2.x
  let maxX := max p1.x p2.x
  let minY := min p1.y p2.y
  let maxY := max p1.y p2.y
  if maxX < obstacle.x ∨ minX > obstacle.x + obstacle.w ∨
      maxY < obstacle.y ∨ minY > obstacle.y + obstacle.h then
    false
  else
    let d := G.dist p1 p2
    let steps : ℤ := ⌈d / 5⌉
    if steps ≤ 0 then false
    else
      (List.range (steps.toNat + 1)).any fun i =>
        let t : ℚ := (i : ℚ) / (steps : ℚ)
        let x := p1.x + t * (p2.x - p1.x)
        let y := p1.y + t * (p2.y - p1.y)
        decide (obstacle.x ≤ x ∧ x ≤ obstacle.x + obstacle.w ∧
          obstacle.y ≤ y ∧ y ≤ obstacle.y + obstacle.h)

/-- `checkCollision(p1, p2, obstacles)`: some obstacle reports intersection. -/
def checkCollision (G : Geo) (p1 p2 : Point) (obstacles : List Obstacle) : Bool :=
  obstacles.any (lineIntersectsObstacle G p1 p2)

/-! ## The planner operations (`rrt.ts`) -/

/-- The NEAREST linear scan: index of the first node attaining the minimum
distance to `s`.  The source initialises `minDist = Infinity`, `index = -1`
and scans with strict `<`, so with a nonempty store (the store always holds at
least the root) the first candidate always replaces the initial `-1` and the
result is the first index attaining the minimum; the fold below starts from
index `0` and is extensionally the same scan. -/
def nearestIndex (G : Geo) (s : Point) (nodes : List Node) : ℕ :=
  (List.range nodes.length).foldl
    (fun best i =>
      if G.dist (pos (nd nodes i)) s < G.dist (pos (nd nodes best)) s then i else best)
    0

/-- The CHOOSE_PARENT fold: starting from `(nearest.id, nearest.cost +
dist(nearest, candidate))`, replace the best pair by a neighbor exactly when
its `cost + dist` is strictly smaller than the running best cost and the
segment from the neighbor to the candidate is collision-free. -/
def choosePair (G : Geo) (np : Point) (obstacles : List Obstacle) (nodes : List Node)
    (neighbors : List ℕ) (init : ℕ × ℚ) : ℕ × ℚ :=
  neighbors.foldl
    (fun best neighborIdx =>
      let neighbor := nd nodes neighborIdx
      let potentialCost := neighbor.cost + G.dist (pos neighbor) np
      if potentialCost < best.2 then
        if checkCollision G (pos neighbor) np obstacles then best
        else (neighborIdx, potentialCost)
      else best)
    init

/-- `updateCost(nodeId)`: depth-first recomputation of the costs of all
descendants of `nodeId` (`child.cost = node.cost + dist(node, child)`).

The source recursion is over the children graph; the embedding adds an
explicit `fuel` argument (always called with `fuel = nodes.length`, which
strictly exceeds the depth of any subtree of an acyclic store, so on the
acyclic stores all theorems are about the fuel is never exhausted).  The
snapshot `node` taken before the loop matches the source's constant object
reference: on acyclic stores neither `node.cost` nor `node.children` changes
while the loop runs. -/
def updateCost (G : Geo) : ℕ → List Node → ℕ → List Node
  | 0, nodes, _ => nodes
  | fuel + 1, nodes, nodeId =>
    let node := nd nodes nodeId
    node.children.foldl
      (fun ns childId =>
        let child := nd ns childId
        let ns1 := ns.set childId { child with cost := node.cost + G.dist (pos node) (pos child) }
        updateCost G fuel ns1 childId)
      nodes

/-- Detaching step of a rewire: remove the neighbor's id from its old
parent's children list (`oldParent.children.filter(id => id !== neighbor.id)`);
a parentless neighbor is left alone. -/
def rwDetach (nodes : List Node) (neighbor : Node) : List Node :=
  match neighbor.parentId with
  | none => nodes
  | some p =>
    let oldParent := nd nodes p
    nodes.set p
      { oldParent with children := oldParent.children.filter fun id => id ≠ neighbor.id }

/-- Re-parenting step of a rewire: point the neighbor's slot at the new node
and store the improved cost. -/
def rwReparent (newNodeId : ℕ) (nodes1 : List Node) (neighborIdx : ℕ) (newCost : ℚ) :
    List Node :=
  nodes1.set neighborIdx
    { nd nodes1 neighborIdx with parentId := some newNodeId, cost := newCost }

/-- Child-registration step of a rewire: push the neighbor's id onto the new
node's children list. -/
def rwAddChild (newNodeId : ℕ) (nodes2 : List Node) (childId : ℕ) : List Node :=
  nodes2.set newNodeId
    { nd nodes2 newNodeId with children := (nd nodes2 newNodeId).children ++ [childId] }

/-- The re-parenting tail of a REWIRE loop iteration: detach the neighbor
from its old parent, re-parent it to the new node, set its cost to the
improved value and recompute the costs of its whole subtree.  Records are
re-read from the store immediately before each mutation, which reproduces
the source's behaviour through object references under any aliasing of the
indices. -/
def rewireAttach (G : Geo) (newNodeId : ℕ) (nodes : List Node) (neighborIdx : ℕ)
    (newCostThroughNewNode : ℚ) : List Node :=
  let neighbor := nd nodes neighborIdx
  let nodes1 := rwDetach nodes neighbor
  let nodes2 := rwReparent newNodeId nodes1 neighborIdx newCostThroughNewNode
  let nodes3 := rwAddChild newNodeId nodes2 neighbor.id
  updateCost G nodes3.length nodes3 neighbor.id

/-- One iteration of the REWIRE loop body, for a single collected neighbor:
if the neighbor is not the new node's own parent, reaching it through the
freshly added node is strictly cheaper, and the connecting segment is
collision-free, re-parent it (`rewireAttach`); otherwise leave the store
unchanged. -/
def rewireBody (G : Geo) (obstacles : List Obstacle) (newNodeId : ℕ)
    (nodes : List Node) (neighborIdx : ℕ) : List Node :=
  let newNode := nd nodes newNodeId
  if newNode.parentId = some neighborIdx then nodes
  else
    let neighbor := nd nodes neighborIdx
    let newCostThroughNewNode := newNode.cost + G.dist (pos newNode) (pos neighbor)
    if newCostThroughNewNode < neighbor.cost then
      if checkCollision G (pos newNode) (pos neighbor) obstacles then nodes
      else rewireAttach G newNodeId nodes neighborIdx newCostThroughNewNode
    else nodes

/-- The parent index chosen at ADD_NODE:
`this.tempNearestNode?.id || 0`, overridden by `tempBestParent` for RRT*.
(When the nearest-node reference is missing, optional chaining yields
`undefined` and `|| 0` falls back to the root; when its id is 0 the `|| 0`
also yields 0, which is the same index.) -/
def finalParent (t : RRTTree) : ℕ :=
  let fp0 := (t.tempNearestNode.map Node.id).getD 0
  if t.algorithm = .RRTStar then t.tempBestParent.getD fp0 else fp0

/-- The ADD_NODE store mutation: append a node at `np` with parent `fp` and
cost `parent.cost + dist(parent, np)`, then push its id onto the parent's
children list.  The parent record used for the cost is read before the
append, as in the source. -/
def addNodeStore (G : Geo) (nodes : List Node) (np : Point) (fp : ℕ) : List Node :=
  let parent := nd nodes fp
  let cost := parent.cost + G.dist (pos parent) np
  let newNodeId := nodes.length
  let newNode : Node :=
    { id := newNodeId, x := np.x, y := np.y, parentId := some fp, cost := cost, children := [] }
  let nodes1 := nodes ++ [newNode]
  let par1 := nd nodes1 fp
  nodes1.set fp { par1 with children := par1.children ++ [newNodeId] }

/-- The REWIRE store mutation: run the rewire loop body over every collected
neighbor, with the freshly added node `nodes.length - 1`. -/
def rewireStore (G : Geo) (obstacles : List Obstacle) (nodes : List Node)
    (neighbors : List ℕ) : List Node :=
  neighbors.foldl (rewireBody G obstacles (nodes.length - 1)) nodes

/-- `resetTemp()`: clear all scratch fields. -/
def resetTemp (t : RRTTree) : RRTTree :=
  { t with tempSample := none, tempNearestNode := none, tempNewPoint := none,
           tempNeighbors := [], tempBestParent := none }

/-- `stepMicro()`: one micro-step of the algorithm.  Returns the updated
planner and the source's boolean (`true` = iteration still ongoing, `false` =
iteration concluded).  `coin`/`u` are the two random draws of the SAMPLE
state (see the file header). -/
def stepMicro (G : Geo) (coin : Bool) (u : Point) (t : RRTTree) : RRTTree × Bool :=
  if t.nodes.length ≥ t.params.maxIterations then (t, false)
  else
    match t.microState with
    | .SAMPLE =>
      let s := if coin then t.goal else u
      ({ t with tempSample := some s, microState := .NEAREST }, true)
    | .NEAREST =>
      match t.tempSample with
      | none => ({ t with microState := .SAMPLE }, true)
      | some s =>
        let idx := nearestIndex G s t.nodes
        ({ t with tempNearestNode := some (nd t.nodes idx), microState := .STEER }, true)
    | .STEER =>
      match t.tempNearestNode, t.tempSample with
      | some nr, some s =>
        ({ t with tempNewPoint := some (steer G (pos nr) s t.params.stepSize),
                  microState := .COLLISION_CHECK }, true)
      | _, _ => ({ t with microState := .SAMPLE }, true)
    | .COLLISION_CHECK =>
      match t.tempNearestNode, t.tempNewPoint with
      | some nr, some np =>
        if checkCollision G (pos nr) np t.obstacles then
          ({ resetTemp t with microState := .SAMPLE }, false)
        else if t.algorithm = .RRTStar then
          ({ t with microState := .NEIGHBORS }, true)
        else
          ({ t with microState := .ADD_NODE }, true)
      | _, _ => ({ t with microState := .SAMPLE }, true)
    | .NEIGHBORS =>
      match t.tempNewPoint with
      | none => ({ t with microState := .SAMPLE }, true)
      | some np =>
        let searchRadius := t.params.searchRadius
        let nbrs := (List.range t.nodes.length).filter fun i =>
          decide (G.dist (pos (nd t.nodes i)) np ≤ searchRadius)
        ({ t with tempNeighbors := nbrs, microState := .CHOOSE_PARENT }, true)
    | .CHOOSE_PARENT =>
      match t.tempNewPoint, t.tempNearestNode with
      | some np, some nr =>
        let init : ℕ × ℚ := (nr.id, nr.cost + G.dist (pos nr) np)
        let best := choosePair G np t.obstacles t.nodes t.tempNeighbors init
        ({ t with tempBestParent := some best.1, microState := .ADD_NODE }, true)
      | _, _ => ({ t with microState := .SAMPLE }, true)
    | .ADD_NODE =>
      match t.tempNewPoint with
      | none => ({ t with microState := .SAMPLE }, true)
      | some np =>
        let nodes2 := addNodeStore G t.nodes np (finalParent t)
        if t.algorithm = .RRTStar then
          ({ t with nodes := nodes2, microState := .REWIRE }, true)
        else
          ({ resetTemp { t with nodes := nodes2 } with microState := .SAMPLE }, false)
    | .REWIRE =>
      let t1 :=
        if t.algorithm = .RRTStar then
          match t.tempNewPoint with
          | some _ =>
            { t with nodes := rewireStore G t.obstacles t.nodes t.tempNeighbors }
          | none => t
        else t
      ({ resetTemp t1 with microState := .SAMPLE }, false)

/-- The drain loop of `step()`, instrumented with the number of `stepMicro`
invocations it makes.  The source is
`let ops = 0; while (this.stepMicro() && ops < 20) { ops++; } return true;`:
the loop keeps calling `stepMicro` while it returns `true`, incrementing
`ops` after each such call, and additionally stops once `ops` reaches the
safety-cap constant `20`.  `rem = 20 - ops` makes the recursion structural;
`o` supplies the random draws by invocation index. -/
def stepFrom (G : Geo) (o : ℕ → Bool × Point) : ℕ → ℕ → RRTTree → RRTTree × ℕ
  | 0, idx, t => ((stepMicro G (o idx).1 (o idx).2 t).1, 1)
  | rem + 1, idx, t =>
    let r := stepMicro G (o idx).1 (o idx).2 t
    if r.2 then
      let s := stepFrom G o rem (idx + 1) r.1
      (s.1, s.2 + 1)
    else (r.1, 1)

/-- `step()`: drain one iteration (bounded by the cap); always returns `true`. -/
def step (G : Geo) (o : ℕ → Bool × Point) (t : RRTTree) : RRTTree × Bool :=
  ((stepFrom G o 20 0 t).1, true)

/-- The number of `stepMicro` invocations a `step()` call performs. -/
def stepCalls (G : Geo) (o : ℕ → Bool × Point) (t : RRTTree) : ℕ :=
  (stepFrom G o 20 0 t).2

/-- The backtrace loop of `getPath`:
`while (curr !== null) { path.push(curr); curr = parent(curr) }`.  The `fuel`
argument (always `nodes.length` at the call site) strictly exceeds the length
of any parent chain of an acyclic store. -/
def backtrace (nodes : List Node) : ℕ → ℕ → List ℕ
  | 0, curr => [curr]
  | fuel + 1, curr =>
    curr ::
      (match (nd nodes curr).parentId with
      | none => []
      | some p => backtrace nodes fuel p)

/-- The candidate selection of `getPath`: the source stably sorts the
candidate list by ascending cost (ECMAScript `Array.prototype.sort` is
stable) and takes the first element, i.e. the earliest candidate attaining
the minimal cost — which is what this strict-`<` fold computes. -/
def selectMinCost (nodes : List Node) (candidates : List ℕ) : ℕ :=
  candidates.foldl
    (fun best i => if (nd nodes i).cost < (nd nodes best).cost then i else best)
    (candidates.headD 0)

/-- `getPath()`: all nodes within `1.5 × stepSize` of the goal are candidates;
if none, the empty sequence; otherwise backtrace from the minimum-cost
candidate to the root and reverse. -/
def getPath (G : Geo) (t : RRTTree) : List ℕ :=
  let candidates := (List.range t.nodes.length).filter fun i =>
    decide (G.dist (pos (nd t.nodes i)) t.goal ≤ t.params.stepSize * 1.5)
  if candidates.isEmpty then []
  else
    let closestNode := selectMinCost t.nodes candidates
    (backtrace t.nodes t.nodes.length closestNode).reverse

/-- The constructor: a fresh planner whose store holds exactly the root node
(id 0, at `start`, no parent, cost 0, no children), in micro-state SAMPLE
with cleared scratch. -/
def construct (width height : ℚ) (start goal : Point) (obstacles : List Obstacle)
    (params : SolverParams) (algorithm : AlgorithmType) : RRTTree :=
  { nodes := [{ id := 0, x := start.x, y := start.y, parentId := none, cost := 0, children := [] }],
    width := width, height := height, start := start, goal := goal,
    obstacles := obstacles, params := params, goalNodeId := none,
    algorithm := algorithm, microState := .SAMPLE,
    tempSample := none, tempNearestNode := none, tempNewPoint := none,
    tempNeighbors := [], tempBestParent := none }

/-- Run a sequence of `stepMicro` calls, one per oracle pair. -/
def advanceList (G : Geo) (t : RRTTree) (l : List (Bool × Point)) : RRTTree :=
  l.foldl (fun s cu => (stepMicro G cu.1 cu.2 s).1) t

/-- Run a sequence of `stepMicro` calls and also collect the returned
booleans, in call order. -/
def runResults (G : Geo) (t : RRTTree) : List (Bool × Point) → RRTTree × List Bool
  | [] => (t, [])
  | cu :: l =>
    let r := stepMicro G cu.1 cu.2 t
    let s := runResults G r.1 l
    (s.1, r.2 :: s.2)

/-! ## The tree invariants -/

/-- `k`-fold iteration of the parent pointer from node `i` (`some j` when the
chain is defined for `k` steps and lands on `j`). -/
def parentIter (nodes : List Node) : ℕ → ℕ → Option ℕ
  | 0, i => some i
  | k + 1, i =>
    match (nd nodes i).parentId with
    | none => none
    | some p => parentIter nodes k p

/-- Validity of a depth function for a store: the depth increases by exactly
1 along every parent edge. -/
def DepthOk (nodes : List Node) (D : ℕ → ℕ) : Prop :=
  ∀ i < nodes.length, ∀ p, (nd nodes i).parentId = some p → D i = D p + 1

/-- Acyclicity of the parent graph, witnessed by a depth function. -/
def Acyclic (nodes : List Node) : Prop := ∃ D : ℕ → ℕ, DepthOk nodes D

/-- Structural well-formedness of the node store: dense ids, a unique
parentless root at index 0, in-range parent pointers, `children`/`parentId`
mutually inverse (each child listed exactly once), and acyclicity of the
parent graph. -/
structure StructWF (nodes : List Node) : Prop where
  len_pos : 0 < nodes.length
  idOk : ∀ i < nodes.length, (nd nodes i).id = i
  rootPar : (nd nodes 0).parentId = none
  noneRoot : ∀ i < nodes.length, (nd nodes i).parentId = none → i = 0
  parLt : ∀ i < nodes.length, ∀ p, (nd nodes i).parentId = some p → p < nodes.length
  childPar : ∀ i < nodes.length, ∀ c ∈ (nd nodes i).children,
    c < nodes.length ∧ (nd nodes c).parentId = some i
  parChild : ∀ i < nodes.length, ∀ c < nodes.length,
    (nd nodes c).parentId = some i → (nd nodes i).children.count c = 1
  acyclic : Acyclic nodes

/-- Full well-formedness of the node store: the structural invariant plus
the cost invariant (root cost 0, every other cost the parent's cost plus the
edge length). -/
structure StoreWF (G : Geo) (nodes : List Node) extends StructWF nodes : Prop where
  rootCost : (nd nodes 0).cost = 0
  costOk : ∀ i < nodes.length, ∀ p, (nd nodes i).parentId = some p →
    (nd nodes i).cost = (nd nodes p).cost + G.dist (pos (nd nodes p)) (pos (nd nodes i))

/-- Well-formedness of a planner state: a well-formed store plus in-range
scratch references (these hold in every reachable state and are all the
engine needs from the scratch fields to keep the store invariants). -/
structure WF (G : Geo) (t : RRTTree) : Prop where
  store : StoreWF G t.nodes
  nearLt : ∀ n, t.tempNearestNode = some n → n.id < t.nodes.length
  bestLt : ∀ b, t.tempBestParent = some b → b < t.nodes.length
  nbrLt : ∀ m ∈ t.tempNeighbors, m < t.nodes.length

/-- Structural equality of two stores up to costs: same length and, slot by
slot, the same id, position, parent pointer and children list. -/
def SameStruct (a b : List Node) : Prop :=
  a.length = b.length ∧ ∀ i,
    (nd a i).id = (nd b i).id ∧ (nd a i).x = (nd b i).x ∧ (nd a i).y = (nd b i).y ∧
    (nd a i).parentId = (nd b i).parentId ∧ (nd a i).children = (nd b i).children

/-! ## Claim-level properties and concrete instances -/

/-- The cost invariant of the tree store: the root (id 0) has cost 0 and
every node with a non-null `parentId` has cost equal to its parent's cost
plus the length of the connecting edge (`dist(parent, node)`; the source's
Euclidean distance is symmetric, so this is also the distance between the
node and its parent). -/
def CostInvariant (G : Geo) (nodes : List Node) : Prop :=
  (nd nodes 0).id = 0 ∧ (nd nodes 0).cost = 0 ∧
  ∀ i < nodes.length, ∀ p, (nd nodes i).parentId = some p →
    (nd nodes i).cost = (nd nodes p).cost + G.dist (pos (nd nodes p)) (pos (nd nodes i))

/-- `children` and `parentId` are mutual inverses: every listed child points
back at its parent, and every node pointing at a parent appears exactly once
in that parent's children list. -/
def ChildrenInverse (nodes : List Node) : Prop :=
  (∀ i < nodes.length, ∀ c ∈ (nd nodes i).children,
    c < nodes.length ∧ (nd nodes c).parentId = some i) ∧
  (∀ i < nodes.length, ∀ c < nodes.length,
    (nd nodes c).parentId = some i → (nd nodes i).children.count c = 1)

/-- From every node, following `parentId` reaches the root (id 0, parentId
null) in at most `nodes.length` steps. -/
def RootReachable (nodes : List Node) : Prop :=
  (nd nodes 0).id = 0 ∧ (nd nodes 0).parentId = none ∧
  ∀ i < nodes.length, ∃ k ≤ nodes.length, parentIter nodes k i = some 0

/-- The concrete geometry used by witnesses and counterexamples.  Every
concrete run below keeps all points on the line `y = 0`, where this distance
equals `|Δx| = √((Δx)² + 0²)`, i.e. exactly the source's Euclidean distance
(and exactly what float64 computes on these small integer inputs); the
direction field is never consulted by these runs (`steer` always takes its
short-circuit branch). -/
def taxiGeo : Geo :=
  { dist := fun p q => |p.x - q.x| + |p.y - q.y|, dir := fun _ _ => (1, 0) }

/-- A well-formed five-node RRT* store on the line `y = 0`: the root at
`x = 0`, a detour node at `x = 20`, below it nodes at `x = 10` and `x = 12`,
and a freshly added node at `x = 4` hanging off the root (the last node, as
ADD_NODE always appends).  All costs satisfy the cost invariant. -/
def rewireNodes : List Node :=
  [{ id := 0, x := 0, y := 0, parentId := none, cost := 0, children := [1, 4] },
   { id := 1, x := 20, y := 0, parentId := some 0, cost := 20, children := [2] },
   { id := 2, x := 10, y := 0, parentId := some 1, cost := 30, children := [3] },
   { id := 3, x := 12, y := 0, parentId := some 2, cost := 32, children := [] },
   { id := 4, x := 4, y := 0, parentId := some 0, cost := 4, children := [] }]

/-- A planner state about to execute REWIRE on `rewireNodes` with collected
neighbors 2 and 3: rewiring node 2 through the new node 4 is strictly
cheaper (4 + 6 = 10 < 30), and the cost cascade then lowers node 3's cost
(to 12) without re-parenting it (4 + 8 = 12 is not < 12). -/
def rewireState : RRTTree :=
  { nodes := rewireNodes, width := 800, height := 600, start := ⟨0, 0⟩, goal := ⟨750, 0⟩,
    obstacles := [], params := { stepSize := 30, maxIterations := 100, goalBias := 0, searchRadius := 60 },
    goalNodeId := none, algorithm := .RRTStar, microState := .REWIRE,
    tempSample := none, tempNearestNode := none, tempNewPoint := some ⟨4, 0⟩,
    tempNeighbors := [2, 3], tempBestParent := none }

/-- A depth function witnessing acyclicity of `rewireNodes`. -/
def rewireDepth : ℕ → ℕ := fun i => [0, 1, 2, 3, 1].getD i 0

/-- A one-node RRT* planner whose micro-state tag was corrupted to NEAREST
with no sample in scratch: the defensive guard bounces it back to SAMPLE, so
draining one iteration from here takes 9 micro-invocations. -/
def corruptState : RRTTree :=
  { nodes := [{ id := 0, x := 0, y := 0, parentId := none, cost := 0, children := [] }],
    width := 800, height := 600, start := ⟨0, 0⟩, goal := ⟨50, 0⟩,
    obstacles := [], params := { stepSize := 100, maxIterations := 100, goalBias := 0, searchRadius := 60 },
    goalNodeId := none, algorithm := .RRTStar, microState := .NEAREST,
    tempSample := none, tempNearestNode := none, tempNewPoint := none,
    tempNeighbors := [], tempBestParent := none }

/-- An oracle that always takes the goal-bias branch. -/
def goalOracle : ℕ → Bool × Point := fun _ => (true, ⟨0, 0⟩)

/-- A one-node RRT planner at ADD_NODE with a candidate point but a missing
nearest-node reference: the source does not reset to SAMPLE here; it adds
the node with the parent index falling back to 0. -/
def missingNearestState : RRTTree :=
  { nodes := [{ id := 0, x := 0, y := 0, parentId := none, cost := 0, children := [] }],
    width := 800, height := 600, start := ⟨0, 0⟩, goal := ⟨50, 0⟩,
    obstacles := [], params := { stepSize := 100, maxIterations := 100, goalBias := 0, searchRadius := 60 },
    goalNodeId := none, algorithm := .RRT, microState := .ADD_NODE,
    tempSample := none, tempNearestNode := none, tempNewPoint := some ⟨5, 0⟩,
    tempNeighbors := [], tempBestParent := none }

/-- A fresh RRT* planner with `maxIterations = 2`: its first iteration adds
a second node, so the eighth micro-call hits the saturation guard while the
micro-state tag is still REWIRE and the scratch is still populated. -/
def smallCapTree : RRTTree :=
  construct 800 600 ⟨0, 0⟩ ⟨50, 0⟩ []
    { stepSize := 100, maxIterations := 2, goalBias := 0, searchRadius := 60 } .RRTStar

/-- A fresh RRT* planner with a generous cap, used by several witnesses. -/
def freshStarTree : RRTTree :=
  construct 800 600 ⟨0, 0⟩ ⟨50, 0⟩ []
    { stepSize := 100, maxIterations := 100, goalBias := 0, searchRadius := 60 } .RRTStar

/-- The potential cost of attaching the candidate point `np` below node `i`:
`nodes[i].cost + dist(nodes[i], np)`. -/
def potCost (G : Geo) (nodes : List Node) (np : Point) (i : ℕ) : ℚ :=
  (nd nodes i).cost + G.dist (pos (nd nodes i)) np

/-- The segment from node `i` to the candidate point `np` is collision-free. -/
def FreeTo (G : Geo) (nodes : List Node) (np : Point) (obstacles : List Obstacle)
    (i : ℕ) : Prop :=
  checkCollision G (pos (nd nodes i)) np obstacles = false

/-- First-in-scan-order characterization of a CHOOSE_PARENT result `r` for
neighbor list `l` and initial pair `init`: either `r` is the untouched
initial pair and no collision-free neighbor strictly beats it (so under
exact ties the initial nearest node is retained), or the scan list splits
around `r.1`, a collision-free neighbor attaining `r.2 < init.2` that every
earlier collision-free neighbor strictly exceeds. -/
def FirstAttainer (G : Geo) (nodes : List Node) (np : Point) (obstacles : List Obstacle)
    (l : List ℕ) (init : ℕ × ℚ) (r : ℕ × ℚ) : Prop :=
  (r = init ∧ ∀ i ∈ l, FreeTo G nodes np obstacles i → init.2 ≤ potCost G nodes np i) ∨
  (∃ l1 l2, l = l1 ++ r.1 :: l2 ∧ FreeTo G nodes np obstacles r.1 ∧
    potCost G nodes np r.1 = r.2 ∧ r.2 < init.2 ∧
    ∀ i ∈ l1, FreeTo G nodes np obstacles i → r.2 < potCost G nodes np i)

/-- A planner state about to execute CHOOSE_PARENT on `rewireNodes` with
candidate `(4, 0)`, nearest node 1 and collected neighbors 2 and 3: here
`potCost 2 = 36` exactly ties the initial cost `20 + 16 = 36`, so the scan
retains the nearest node. -/
def cpState : RRTTree :=
  { rewireState with
      microState := .CHOOSE_PARENT,
      tempNearestNode := some (nd rewireNodes 1) }

/-! ## Store access lemmas -/

theorem nd_eq_getElem? (nodes : List Node) (i : ℕ) : nd nodes i = nodes[i]?.getD default :=
  List.getD_eq_getElem?_getD nodes i default

theorem nd_set_self {nodes : List Node} {i : ℕ} (a : Node) (h : i < nodes.length) :
    nd (nodes.set i a) i = a := by
  rw [nd_eq_getElem?, List.getElem?_set_eq_of_lt a h]; rfl

theorem nd_set_ne {nodes : List Node} {i j : ℕ} (a : Node) (h : j ≠ i) :
    nd (nodes.set i a) j = nd nodes j := by
  rw [nd_eq_getElem?, nd_eq_getElem?, List.getElem?_set_ne (fun e => h e.symm)]

theorem nd_append_lt {nodes : List Node} {i : ℕ} (a : Node) (h : i < nodes.length) :
    nd (nodes ++ [a]) i = nd nodes i := by
  rw [nd_eq_getElem?, nd_eq_getElem?, List.getElem?_append]
  simp [h]

theorem nd_append_len (nodes : List Node) (a : Node) :
    nd (nodes ++ [a]) nodes.length = a := by
  rw [nd_eq_getElem?]
  simp

theorem nd_of_le {nodes : List Node} {i : ℕ} (h : nodes.length ≤ i) :
    nd nodes i = default := by
  rw [nd_eq_getElem?, List.getElem?_eq_none h]; rfl

theorem nd_set_of_le {nodes : List Node} {i j : ℕ} (a : Node) (h : nodes.length ≤ i) :
    nd (nodes.set i a) j = nd nodes j := by
  rw [List.set_eq_of_length_le h]

/-! ## SameStruct basics -/

theorem SameStruct.refl (a : List Node) : SameStruct a a :=
  ⟨rfl, fun _ => ⟨rfl, rfl, rfl, rfl, rfl⟩⟩

theorem SameStruct.trans {a b c : List Node} (h1 : SameStruct a b) (h2 : SameStruct b c) :
    SameStruct a c := by
  obtain ⟨hl1, hf1⟩ := h1
  obtain ⟨hl2, hf2⟩ := h2
  refine ⟨hl1.trans hl2, fun i => ?_⟩
  obtain ⟨a1, a2, a3, a4, a5⟩ := hf1 i
  obtain ⟨b1, b2, b3, b4, b5⟩ := hf2 i
  exact ⟨a1.trans b1, a2.trans b2, a3.trans b3, a4.trans b4, a5.trans b5⟩

theorem SameStruct.symm {a b : List Node} (h : SameStruct a b) : SameStruct b a := by
  obtain ⟨hl, hf⟩ := h
  refine ⟨hl.symm, fun i => ?_⟩
  obtain ⟨a1, a2, a3, a4, a5⟩ := hf i
  exact ⟨a1.symm, a2.symm, a3.symm, a4.symm, a5.symm⟩

theorem SameStruct.pos_eq {a b : List Node} (h : SameStruct a b) (i : ℕ) :
    pos (nd a i) = pos (nd b i) := by
  obtain ⟨-, hf⟩ := h
  obtain ⟨-, h2, h3, -, -⟩ := hf i
  simp [pos, h2, h3]

/-- Setting a slot to a record that differs only in its cost preserves the
structure. -/
theorem sameStruct_set_cost {nodes : List Node} {i : ℕ} {v : ℚ} :
    SameStruct nodes (nodes.set i { nd nodes i with cost := v }) := by
  rcases Nat.lt_or_ge i nodes.length with h | h
  · refine ⟨(List.length_set nodes i _).symm, fun j => ?_⟩
    rcases eq_or_ne j i with rfl | hj
    · rw [nd_set_self _ h]; exact ⟨rfl, rfl, rfl, rfl, rfl⟩
    · rw [nd_set_ne _ hj]; exact ⟨rfl, rfl, rfl, rfl, rfl⟩
  · rw [List.set_eq_of_length_le h]; exact SameStruct.refl nodes

theorem SameStruct.parentIter_eq {a b : List Node} (h : SameStruct a b) :
    ∀ k i, parentIter a k i = parentIter b k i := by
  intro k
  induction k with
  | zero => intro i; rfl
  | succ k ih =>
    intro i
    obtain ⟨-, hf⟩ := h
    obtain ⟨-, -, -, h4, -⟩ := hf i
    simp only [parentIter, h4]
    cases (nd b i).parentId with
    | none => rfl
    | some p => exact ih p

theorem SameStruct.structWF {a b : List Node} (hs : SameStruct a b) (h : StructWF a) :
    StructWF b := by
  obtain ⟨hl, hf⟩ := hs
  have hfi := fun i => hf i
  constructor
  · exact hl ▸ h.len_pos
  · intro i hi; rw [← (hfi i).1, h.idOk i (hl ▸ hi)]
  · rw [← (hfi 0).2.2.2.1, h.rootPar]
  · intro i hi hp; exact h.noneRoot i (hl ▸ hi) ((hfi i).2.2.2.1 ▸ hp)
  · intro i hi p hp
    exact hl ▸ h.parLt i (hl ▸ hi) p ((hfi i).2.2.2.1 ▸ hp)
  · intro i hi c hc
    have := h.childPar i (hl ▸ hi) c ((hfi i).2.2.2.2 ▸ hc)
    exact ⟨hl ▸ this.1, (hfi c).2.2.2.1 ▸ this.2⟩
  · intro i hi c hc hp
    rw [← (hfi i).2.2.2.2]
    exact h.parChild i (hl ▸ hi) c (hl ▸ hc) ((hfi c).2.2.2.1 ▸ hp)
  · obtain ⟨D, hD⟩ := h.acyclic
    refine ⟨D, fun i hi p hp => hD i (hl ▸ hi) p ((hfi i).2.2.2.1 ▸ hp)⟩

/-! ## Parent-chain lemmas -/

theorem parentIter_add (nodes : List Node) (m n i : ℕ) :
    parentIter nodes (m + n) i = (parentIter nodes m i).bind (parentIter nodes n) := by
  induction m generalizing i with
  | zero => simp [parentIter]
  | succ m ih =>
    have : m + 1 + n = (m + n) + 1 := by omega
    rw [this]
    simp only [parentIter]
    cases (nd nodes i).parentId with
    | none => rfl
    | some p => exact ih p

/-- Along a defined parent chain from an in-range node all nodes are in range
and the depth decreases by exactly the number of steps. -/
theorem depth_parentIter {nodes : List Node} {D : ℕ → ℕ}
    (h : StructWF nodes) (hD : DepthOk nodes D) :
    ∀ k i j, i < nodes.length → parentIter nodes k i = some j →
      j < nodes.length ∧ D i = D j + k := by
  intro k
  induction k with
  | zero =>
    intro i j hi hj
    simp only [parentIter, Option.some.injEq] at hj
    subst hj
    exact ⟨hi, by omega⟩
  | succ k ih =>
    intro i j hi hj
    simp only [parentIter] at hj
    rcases hp : (nd nodes i).parentId with - | p
    · rw [hp] at hj; exact absurd hj (by simp)
    · rw [hp] at hj
      have hplt := h.parLt i hi p hp
      obtain ⟨hj1, hj2⟩ := ih p j hplt hj
      exact ⟨hj1, by rw [hD i hi p hp, hj2]; omega⟩

/-- A defined cycle in the parent graph must be trivial. -/
theorem parentIter_eq_self {nodes : List Node} (h : StructWF nodes)
    {k i : ℕ} (hi : i < nodes.length) (hcyc : parentIter nodes k i = some i) : k = 0 := by
  obtain ⟨D, hD⟩ := h.acyclic
  have := (depth_parentIter h hD k i i hi hcyc).2
  omega

/-- Every in-range node reaches the root by a parent chain of fewer than
`nodes.length` steps, along which the depth only decreases. -/
theorem exists_rootChain {nodes : List Node} {D : ℕ → ℕ}
    (h : StructWF nodes) (hD : DepthOk nodes D) :
    ∀ i < nodes.length, ∃ (k : ℕ) (c : List ℕ),
      parentIter nodes k i = some 0 ∧ c.length = k + 1 ∧ c.Nodup ∧
      (∀ x ∈ c, x < nodes.length ∧ D x ≤ D i) := by
  suffices haux : ∀ n, ∀ i, i < nodes.length → D i ≤ n → ∃ (k : ℕ) (c : List ℕ),
      parentIter nodes k i = some 0 ∧ c.length = k + 1 ∧ c.Nodup ∧
      (∀ x ∈ c, x < nodes.length ∧ D x ≤ D i) by
    exact fun i hi => haux (D i) i hi le_rfl
  intro n
  induction n with
  | zero =>
    intro i hi hn
    rcases hp : (nd nodes i).parentId with - | p
    · have : i = 0 := h.noneRoot i hi hp
      subst this
      exact ⟨0, [0], rfl, rfl, List.nodup_singleton 0, by simp [hi]⟩
    · exfalso
      have := hD i hi p hp
      omega
  | succ n ih =>
    intro i hi hn
    rcases hp : (nd nodes i).parentId with - | p
    · have : i = 0 := h.noneRoot i hi hp
      subst this
      exact ⟨0, [0], rfl, rfl, List.nodup_singleton 0, by simp [hi]⟩
    · have hplt := h.parLt i hi p hp
      have hdp : D i = D p + 1 := hD i hi p hp
      obtain ⟨k, c, hiter, hlen, hnd, hmem⟩ := ih p hplt (by omega)
      refine ⟨k + 1, i :: c, ?_, by simp [hlen], ?_, ?_⟩
      · simp only [parentIter, hp]; exact hiter
      · refine List.nodup_cons.mpr ⟨fun hmemi => ?_, hnd⟩
        have := (hmem i hmemi).2
        omega
      · intro x hx
        rcases List.mem_cons.mp hx with rfl | hx'
        · exact ⟨hi, le_refl _⟩
        · exact ⟨(hmem x hx').1, by have := (hmem x hx').2; omega⟩

/-- Every in-range node reaches the root in fewer than `nodes.length` steps. -/
theorem rootSteps_lt_len {nodes : List Node} (h : StructWF nodes) :
    ∀ i < nodes.length, ∃ k < nodes.length, parentIter nodes k i = some 0 := by
  intro i hi
  obtain ⟨D, hD⟩ := h.acyclic
  obtain ⟨k, c, hiter, hlen, hnd, hmem⟩ := exists_rootChain h hD i hi
  refine ⟨k, ?_, hiter⟩
  have hsub : c.toFinset ⊆ Finset.range nodes.length := by
    intro x hx
    simp only [Finset.mem_range]
    exact (hmem x (List.mem_toFinset.mp hx)).1
  have hcard := Finset.card_le_card hsub
  rw [List.toFinset_card_of_nodup hnd, Finset.card_range, hlen] at hcard
  omega

/-- Any defined parent chain from an in-range node has fewer than
`nodes.length` steps. -/
theorem parentIter_lt_len {nodes : List Node} (h : StructWF nodes)
    {k i j : ℕ} (hi : i < nodes.length) (hit : parentIter nodes k i = some j) :
    k < nodes.length := by
  obtain ⟨k0, hk0, hiter0⟩ := rootSteps_lt_len h i hi
  rcases Nat.lt_or_ge k nodes.length with hlt | hge
  · exact hlt
  · exfalso
    have hkgt : k0 < k := by omega
    have h2 : parentIter nodes k i = parentIter nodes (k - k0) 0 := by
      conv_lhs => rw [show k = k0 + (k - k0) by omega]
      rw [parentIter_add, hiter0]
      rfl
    have hpos : k - k0 = (k - k0 - 1) + 1 := by omega
    rw [hpos] at h2
    simp only [parentIter, h.rootPar] at h2
    rw [hit] at h2
    exact absurd h2 (by simp)

/-- Costs only decrease along parent chains (ancestors are at most as
expensive), given nonnegative edge lengths. -/
theorem cost_ancestor_le {G : Geo} {nodes : List Node}
    (h : StoreWF G nodes) (hd : ∀ p q, 0 ≤ G.dist p q) :
    ∀ k i j, i < nodes.length → parentIter nodes k i = some j →
      (nd nodes j).cost ≤ (nd nodes i).cost := by
  intro k
  induction k with
  | zero =>
    intro i j hi hj
    simp only [parentIter, Option.some.injEq] at hj
    subst hj
    exact le_refl _
  | succ k ih =>
    intro i j hi hj
    simp only [parentIter] at hj
    rcases hp : (nd nodes i).parentId with - | p
    · rw [hp] at hj; exact absurd hj (by simp)
    · rw [hp] at hj
      have hplt := h.parLt i hi p hp
      have hcost := h.costOk i hi p hp
      have := ih p j hplt hj
      have hnn := hd (pos (nd nodes p)) (pos (nd nodes i))
      calc (nd nodes j).cost ≤ (nd nodes p).cost := this
        _ ≤ (nd nodes i).cost := by rw [hcost]; linarith

/-- All costs are nonnegative in a well-formed store (with nonnegative edge
lengths). -/
theorem cost_nonneg {G : Geo} {nodes : List Node}
    (h : StoreWF G nodes) (hd : ∀ p q, 0 ≤ G.dist p q) :
    ∀ i < nodes.length, 0 ≤ (nd nodes i).cost := by
  intro i hi
  obtain ⟨k, -, hiter⟩ := rootSteps_lt_len h.toStructWF i hi
  have := cost_ancestor_le h hd k i 0 hi hiter
  rw [h.rootCost] at this
  exact this

/-! ## Subtrees -/

/-- `i` lies in the subtree rooted at `r` (reflexively): some parent chain
from `i` reaches `r`. -/
def SubtreeOf (nodes : List Node) (r i : ℕ) : Prop :=
  ∃ k, parentIter nodes k i = some r

/-- `i` is a strict descendant of `r`. -/
def StrictDesc (nodes : List Node) (r i : ℕ) : Prop :=
  ∃ k, parentIter nodes (k + 1) i = some r

theorem parentIter_one (nodes : List Node) (i : ℕ) :
    parentIter nodes 1 i = (nd nodes i).parentId := by
  simp only [parentIter]
  cases (nd nodes i).parentId <;> rfl

theorem subtreeOf_iff (nodes : List Node) (r i : ℕ) :
    SubtreeOf nodes r i ↔ i = r ∨ StrictDesc nodes r i := by
  constructor
  · rintro ⟨k, hk⟩
    cases k with
    | zero => simp only [parentIter, Option.some.injEq] at hk; exact Or.inl hk
    | succ k => exact Or.inr ⟨k, hk⟩
  · rintro (rfl | ⟨k, hk⟩)
    · exact ⟨0, rfl⟩
    · exact ⟨k + 1, hk⟩

theorem subtreeOf_self (nodes : List Node) (r : ℕ) : SubtreeOf nodes r r := ⟨0, rfl⟩

/-- Extend a subtree chain by the parent edge of the subtree root. -/
theorem strictDesc_of_subtree_parent {nodes : List Node} {c j i : ℕ}
    (hc : (nd nodes c).parentId = some j) (hs : SubtreeOf nodes c i) :
    StrictDesc nodes j i := by
  obtain ⟨k, hk⟩ := hs
  refine ⟨k, ?_⟩
  rw [parentIter_add nodes k 1 i, hk]
  simp only [Option.bind_eq_bind, Option.some_bind, parentIter_one]
  exact hc

/-- A strict descendant of a node `c` is in the subtree of `c` via its own
parent. -/
theorem subtree_parent_of_strictDesc {nodes : List Node} {c i q : ℕ}
    (hq : (nd nodes i).parentId = some q) (hs : StrictDesc nodes c i) :
    SubtreeOf nodes c q := by
  obtain ⟨k, hk⟩ := hs
  have : parentIter nodes (1 + k) i = some c := by rw [Nat.add_comm]; exact hk
  rw [parentIter_add nodes 1 k i, parentIter_one, hq] at this
  exact ⟨k, this⟩

/-- No node is a strict descendant of itself. -/
theorem not_strictDesc_self {nodes : List Node} (h : StructWF nodes)
    {i : ℕ} (hi : i < nodes.length) : ¬ StrictDesc nodes i i := by
  rintro ⟨k, hk⟩
  have := parentIter_eq_self h hi hk
  omega

/-- A node is never in the subtree of one of its children. -/
theorem not_subtree_of_child {nodes : List Node} (h : StructWF nodes)
    {j c : ℕ} (hj : j < nodes.length) (hc : (nd nodes c).parentId = some j) :
    ¬ SubtreeOf nodes c j := by
  rintro ⟨k, hk⟩
  have : parentIter nodes (k + 1) j = some j := by
    rw [parentIter_add nodes k 1 j, hk]
    simp only [Option.bind_eq_bind, Option.some_bind, parentIter_one]
    exact hc
  have := parentIter_eq_self h hj this
  omega

/-- Chains from an in-range node stay in range. -/
theorem parentIter_mem_lt {nodes : List Node} (h : StructWF nodes)
    {k i j : ℕ} (hi : i < nodes.length) (hk : parentIter nodes k i = some j) :
    j < nodes.length := by
  obtain ⟨D, hD⟩ := h.acyclic
  exact (depth_parentIter h hD k i j hi hk).1

/-- Chains from an out-of-range node are undefined after one step. -/
theorem parentIter_of_le {nodes : List Node} {i : ℕ} (hi : nodes.length ≤ i) (k : ℕ) :
    parentIter nodes (k + 1) i = none := by
  simp only [parentIter, nd_of_le hi]

/-- Subtrees of two distinct children of the same node are disjoint. -/
theorem sibling_subtree_disjoint {nodes : List Node} (h : StructWF nodes)
    {j c c' i : ℕ} (hj : j < nodes.length)
    (hc : (nd nodes c).parentId = some j) (hc' : (nd nodes c').parentId = some j)
    (hne : c ≠ c') (hs : SubtreeOf nodes c i) (hs' : SubtreeOf nodes c' i) : False := by
  obtain ⟨k, hk⟩ := hs
  obtain ⟨k', hk'⟩ := hs'
  rcases Nat.le_total k k' with hle | hle
  · -- the chain from i passes c at step k and c' at step k': c' is above c
    have hstep : parentIter nodes (k' - k) c = some c' := by
      have : parentIter nodes (k + (k' - k)) i = some c' := by
        rw [show k + (k' - k) = k' by omega]; exact hk'
      rw [parentIter_add, hk] at this
      simpa using this
    rcases Nat.eq_or_lt_of_le hle with rfl | hlt
    · simp only [Nat.sub_self, parentIter, Option.some.injEq] at hstep
      exact hne hstep
    · have hstep2 : parentIter nodes (k' - k - 1) j = some c' := by
        have : parentIter nodes (1 + (k' - k - 1)) c = some c' := by
          rw [show 1 + (k' - k - 1) = k' - k by omega]; exact hstep
        rw [parentIter_add, parentIter_one, hc] at this
        simpa using this
      exact not_subtree_of_child h hj hc' ⟨k' - k - 1, hstep2⟩
  · have hstep : parentIter nodes (k - k') c' = some c := by
      have : parentIter nodes (k' + (k - k')) i = some c := by
        rw [show k' + (k - k') = k by omega]; exact hk
      rw [parentIter_add, hk'] at this
      simpa using this
    rcases Nat.eq_or_lt_of_le hle with hle2 | hlt
    · rw [hle2] at hstep
      simp only [Nat.sub_self, parentIter, Option.some.injEq] at hstep
      exact hne hstep.symm
    · have hstep2 : parentIter nodes (k - k' - 1) j = some c := by
        have : parentIter nodes (1 + (k - k' - 1)) c' = some c := by
          rw [show 1 + (k - k' - 1) = k - k' by omega]; exact hstep
        rw [parentIter_add, parentIter_one, hc'] at this
        simpa using this
      exact not_subtree_of_child h hj hc ⟨k - k' - 1, hstep2⟩

theorem SameStruct.subtreeOf_congr {a b : List Node} (h : SameStruct a b) (r i : ℕ) :
    SubtreeOf a r i ↔ SubtreeOf b r i := by
  unfold SubtreeOf
  constructor <;> rintro ⟨k, hk⟩ <;> exact ⟨k, by rw [← hk, h.parentIter_eq]⟩

theorem SameStruct.strictDesc_iff {a b : List Node} (h : SameStruct a b) (r i : ℕ) :
    StrictDesc a r i ↔ StrictDesc b r i := by
  unfold StrictDesc
  constructor <;> rintro ⟨k, hk⟩ <;> exact ⟨k, by rw [← hk, h.parentIter_eq]⟩

/-- A strict descendant of `j` enters through one of `j`'s children. -/
theorem strictDesc_via_child {nodes : List Node} (h : StructWF nodes)
    {j i : ℕ} (hj : j < nodes.length) (hi : i < nodes.length)
    (hsd : StrictDesc nodes j i) : ∃ c ∈ (nd nodes j).children, SubtreeOf nodes c i := by
  obtain ⟨k, hk⟩ := hsd
  have hsplit := parentIter_add nodes k 1 i
  rw [hk] at hsplit
  rcases hmid : parentIter nodes k i with - | c
  · rw [hmid] at hsplit
    exact absurd hsplit.symm (by simp)
  · rw [hmid] at hsplit
    simp only [Option.bind_eq_bind, Option.some_bind, parentIter_one] at hsplit
    have hclt : c < nodes.length := parentIter_mem_lt h hi hmid
    have hcp : (nd nodes c).parentId = some j := hsplit.symm
    have hcount := h.parChild j hj c hclt hcp
    have hcmem : c ∈ (nd nodes j).children := by
      have hpos : 0 < (nd nodes j).children.count c := by omega
      exact List.count_pos_iff.mp hpos
    exact ⟨c, hcmem, ⟨k, hmid⟩⟩

/-! ## Correctness of `updateCost` -/

theorem updateCost_succ (G : Geo) (fuel : ℕ) (nodes : List Node) (j : ℕ) :
    updateCost G (fuel + 1) nodes j =
      (nd nodes j).children.foldl
        (fun ns childId =>
          updateCost G fuel
            (ns.set childId
              { nd ns childId with
                cost := (nd nodes j).cost + G.dist (pos (nd nodes j)) (pos (nd ns childId)) })
            childId)
        nodes := rfl

/-- The single-child body of the `updateCost` fold, preserving the running
invariant: the structure is untouched, any slot outside the subtrees of the
already processed children still holds its original record, and every edge
inside a processed subtree already satisfies the cost equation. -/
theorem updateCost_fold_aux (G : Geo) (fuel : ℕ)
    (IH : ∀ (nodes : List Node) (j : ℕ), StructWF nodes → j < nodes.length →
      (∀ d k, parentIter nodes (k + 1) d = some j → k + 1 ≤ fuel) →
      SameStruct nodes (updateCost G fuel nodes j) ∧
      (∀ i, ¬ StrictDesc nodes j i → nd (updateCost G fuel nodes j) i = nd nodes i) ∧
      (∀ i, i < nodes.length → ∀ q, (nd nodes i).parentId = some q → StrictDesc nodes j i →
        (nd (updateCost G fuel nodes j) i).cost =
          (nd (updateCost G fuel nodes j) q).cost +
            G.dist (pos (nd nodes q)) (pos (nd nodes i))))
    (nodes0 : List Node) (j : ℕ) (h0 : StructWF nodes0) (hj : j < nodes0.length)
    (hb : ∀ d k, parentIter nodes0 (k + 1) d = some j → k + 1 ≤ fuel + 1) :
    ∀ (suf pre : List ℕ), (nd nodes0 j).children = pre ++ suf →
    ∀ ns, SameStruct nodes0 ns →
    (∀ i, ¬ (∃ c ∈ pre, SubtreeOf nodes0 c i) → nd ns i = nd nodes0 i) →
    (∀ i, i < nodes0.length → ∀ q, (nd nodes0 i).parentId = some q →
      (∃ c ∈ pre, SubtreeOf nodes0 c i) →
      (nd ns i).cost = (nd ns q).cost + G.dist (pos (nd nodes0 q)) (pos (nd nodes0 i))) →
    (SameStruct nodes0
        (suf.foldl
          (fun ns2 childId =>
            updateCost G fuel
              (ns2.set childId
                { nd ns2 childId with
                  cost :=
                    (nd nodes0 j).cost + G.dist (pos (nd nodes0 j)) (pos (nd ns2 childId)) })
              childId)
          ns) ∧
      (∀ i, ¬ (∃ c ∈ pre ++ suf, SubtreeOf nodes0 c i) →
        nd (suf.foldl
          (fun ns2 childId =>
            updateCost G fuel
              (ns2.set childId
                { nd ns2 childId with
                  cost :=
                    (nd nodes0 j).cost + G.dist (pos (nd nodes0 j)) (pos (nd ns2 childId)) })
              childId)
          ns) i = nd nodes0 i) ∧
      (∀ i, i < nodes0.length → ∀ q, (nd nodes0 i).parentId = some q →
        (∃ c ∈ pre ++ suf, SubtreeOf nodes0 c i) →
        (nd (suf.foldl
          (fun ns2 childId =>
            updateCost G fuel
              (ns2.set childId
                { nd ns2 childId with
                  cost :=
                    (nd nodes0 j).cost + G.dist (pos (nd nodes0 j)) (pos (nd ns2 childId)) })
              childId)
          ns) i).cost =
          (nd (suf.foldl
            (fun ns2 childId =>
              updateCost G fuel
                (ns2.set childId
                  { nd ns2 childId with
                    cost :=
                      (nd nodes0 j).cost + G.dist (pos (nd nodes0 j)) (pos (nd ns2 childId)) })
                childId)
            ns) q).cost + G.dist (pos (nd nodes0 q)) (pos (nd nodes0 i)))) := by
  intro suf
  induction suf with
  | nil =>
    intro pre hcs ns hA hB hC
    simp only [List.foldl_nil, List.append_nil]
    exact ⟨hA, hB, hC⟩
  | cons c rest ihs =>
    intro pre hcs ns hA hB hC
    simp only [List.foldl_cons]
    -- facts about the child `c`
    have hcmem : c ∈ (nd nodes0 j).children := by
      rw [hcs]; exact List.mem_append_right pre (List.mem_cons_self c rest)
    obtain ⟨hclt, hcpar⟩ := h0.childPar j hj c hcmem
    have hcnotpre : c ∉ pre := by
      have hcnt := h0.parChild j hj c hclt hcpar
      rw [hcs, List.count_append, List.count_cons_self] at hcnt
      intro hmem
      have := List.count_pos_iff.mpr hmem
      omega
    have hjnec : j ≠ c := by
      intro he
      obtain ⟨D, hD⟩ := h0.acyclic
      have := hD c hclt j hcpar
      rw [he] at this
      omega
    -- the cost-refresh write for `c`
    set v := (nd nodes0 j).cost + G.dist (pos (nd nodes0 j)) (pos (nd ns c)) with hv
    set ns1 := ns.set c { nd ns c with cost := v } with hns1
    have hA1 : SameStruct nodes0 ns1 := hA.trans sameStruct_set_cost
    have hS1 : StructWF ns1 := hA1.structWF h0
    have hlen1 : nodes0.length = ns1.length := hA1.1
    -- the recursive update of the subtree of `c`
    have hbound : ∀ d k, parentIter ns1 (k + 1) d = some c → k + 1 ≤ fuel := by
      intro d k hk
      rw [← hA1.parentIter_eq] at hk
      have hext : parentIter nodes0 (k + 1 + 1) d = some j := by
        rw [parentIter_add nodes0 (k + 1) 1 d, hk]
        simp only [Option.bind_eq_bind, Option.some_bind, parentIter_one]
        exact hcpar
      have := hb d (k + 1) hext
      omega
    obtain ⟨hUA, hUB, hUC⟩ := IH ns1 c hS1 (hlen1 ▸ hclt) hbound
    set ns2 := updateCost G fuel ns1 c with hns2
    have hA2 : SameStruct nodes0 ns2 := hA1.trans hUA
    -- records outside the subtree of `c` survive the write and the recursion
    have hkeep : ∀ i, ¬ SubtreeOf nodes0 c i → nd ns2 i = nd ns i := by
      intro i hni
      rw [subtreeOf_iff] at hni
      push_neg at hni
      have hne := hni.1
      have hnsd := hni.2
      rw [hA1.strictDesc_iff c i] at hnsd
      rw [hUB i hnsd, hns1, nd_set_ne _ hne]
    have hjkeep : nd ns2 j = nd ns j :=
      hkeep j (not_subtree_of_child h0 hj hcpar)
    have hjorig : nd ns j = nd nodes0 j := by
      refine hB j ?_
      rintro ⟨c', hc'mem, hc'sub⟩
      have hc'char := h0.childPar j hj c' (by rw [hcs]; exact List.mem_append_left _ hc'mem)
      exact not_subtree_of_child h0 hj hc'char.2 hc'sub
    -- premise B for the recursion step
    have hB' : ∀ i, ¬ (∃ c' ∈ pre ++ [c], SubtreeOf nodes0 c' i) → nd ns2 i = nd nodes0 i := by
      intro i hni
      have hnpre : ¬ (∃ c' ∈ pre, SubtreeOf nodes0 c' i) := by
        rintro ⟨c', hm, hs⟩
        exact hni ⟨c', List.mem_append_left _ hm, hs⟩
      have hnc : ¬ SubtreeOf nodes0 c i := by
        intro hs
        exact hni ⟨c, List.mem_append_right _ (List.mem_singleton.mpr rfl), hs⟩
      rw [hkeep i hnc]
      exact hB i hnpre
    -- premise C for the recursion step
    have hC' : ∀ i, i < nodes0.length → ∀ q, (nd nodes0 i).parentId = some q →
        (∃ c' ∈ pre ++ [c], SubtreeOf nodes0 c' i) →
        (nd ns2 i).cost = (nd ns2 q).cost + G.dist (pos (nd nodes0 q)) (pos (nd nodes0 i)) := by
      intro i hi q hq hex
      obtain ⟨c', hc'mem, hc'sub⟩ := hex
      rcases List.mem_append.mp hc'mem with hm | hm
      · -- `i` lies in the subtree of an earlier child: untouched by this step
        have hc'char := h0.childPar j hj c' (by rw [hcs]; exact List.mem_append_left _ hm)
        have hc'ne : c ≠ c' := fun he => hcnotpre (he ▸ hm)
        have hidisj : ¬ SubtreeOf nodes0 c i := fun hs =>
          sibling_subtree_disjoint h0 hj hcpar hc'char.2 hc'ne hs hc'sub
        have hqdisj : ¬ SubtreeOf nodes0 c q := by
          rcases (subtreeOf_iff nodes0 c' i).mp hc'sub with hic | hsd
          · -- i = c', hence q = j
            have hqj : q = j := by
              rw [hic, hc'char.2] at hq
              exact (Option.some.inj hq).symm
            rw [hqj]
            exact not_subtree_of_child h0 hj hcpar
          · have hqsub : SubtreeOf nodes0 c' q := subtree_parent_of_strictDesc hq hsd
            exact fun hs => sibling_subtree_disjoint h0 hj hcpar hc'char.2 hc'ne hs hqsub
        rw [hkeep i hidisj, hkeep q hqdisj]
        exact hC i hi q hq ⟨c', hm, hc'sub⟩
      · -- `i` lies in the subtree of `c` itself
        have hcc : c' = c := List.mem_singleton.mp hm
        rw [hcc] at hc'sub
        rcases (subtreeOf_iff nodes0 c i).mp hc'sub with hic | hsd
        · -- i = c: the freshly written cost
          subst hic
          have hqj : q = j := by
            rw [hcpar] at hq
            exact (Option.some.inj hq).symm
          subst hqj
          have hndc : nd ns2 i = nd ns1 i := by
            refine hUB i ?_
            rw [← hA1.strictDesc_iff]
            exact not_strictDesc_self h0 hclt
          have hndc1 : nd ns1 i = { nd ns i with cost := v } := by
            rw [hns1]
            exact nd_set_self _ (by rw [hA.1] at hclt; exact hclt)
          rw [hndc, hndc1, hjkeep, hjorig]
          simp only [hv]
          have hposc : pos (nd ns i) = pos (nd nodes0 i) := (hA.pos_eq i).symm
          rw [hposc]
        · -- a strict descendant of `c`: the recursive call fixed its edge
          have hiq := hUC i (by rw [← hlen1]; exact hi) q
            (by rw [← (hA1.2 i).2.2.2.1]; exact hq)
            (by rw [← hA1.strictDesc_iff]; exact hsd)
          rw [hns2] at hiq ⊢
          rw [hiq, (hA1.pos_eq q), (hA1.pos_eq i)]
    -- recurse on the remaining children
    have hres := ihs (pre ++ [c]) (by rw [hcs, List.append_assoc]; rfl) ns2 hA2 hB' hC'
    obtain ⟨rA, rB, rC⟩ := hres
    refine ⟨rA, fun i hni => rB i ?_, fun i hi q hq hex => rC i hi q hq ?_⟩
    · rintro ⟨c', hm, hs⟩
      refine hni ⟨c', ?_, hs⟩
      rw [List.append_assoc] at hm
      exact hm
    · obtain ⟨c', hm, hs⟩ := hex
      refine ⟨c', ?_, hs⟩
      rw [List.append_assoc]
      exact hm

/-- Correctness of `updateCost`: with sufficient fuel on a structurally
well-formed store, it changes nothing but the costs of the strict descendants
of `nodeId`, and afterwards every strict descendant's cost equals its
parent's cost plus the edge length. -/
theorem updateCost_spec (G : Geo) :
    ∀ (fuel : ℕ) (nodes : List Node) (j : ℕ), StructWF nodes → j < nodes.length →
    (∀ d k, parentIter nodes (k + 1) d = some j → k + 1 ≤ fuel) →
    SameStruct nodes (updateCost G fuel nodes j) ∧
    (∀ i, ¬ StrictDesc nodes j i → nd (updateCost G fuel nodes j) i = nd nodes i) ∧
    (∀ i, i < nodes.length → ∀ q, (nd nodes i).parentId = some q → StrictDesc nodes j i →
      (nd (updateCost G fuel nodes j) i).cost =
        (nd (updateCost G fuel nodes j) q).cost +
          G.dist (pos (nd nodes q)) (pos (nd nodes i))) := by
  intro fuel
  induction fuel with
  | zero =>
    intro nodes j h hj hb
    refine ⟨SameStruct.refl nodes, fun i _ => rfl, fun i hi q hq hsd => ?_⟩
    obtain ⟨k, hk⟩ := hsd
    have := hb i k hk
    omega
  | succ fuel ih =>
    intro nodes j h hj hb
    have key := updateCost_fold_aux G fuel ih nodes j h hj hb ((nd nodes j).children) []
      rfl nodes (SameStruct.refl nodes) (fun i _ => rfl)
      (fun i hi q hq hmem => by
        obtain ⟨c, hc, -⟩ := hmem
        exact absurd hc (List.not_mem_nil c))
    rw [updateCost_succ]
    obtain ⟨kA, kB, kC⟩ := key
    refine ⟨kA, fun i hni => kB i ?_, fun i hi q hq hsd => kC i hi q hq ?_⟩
    · rintro ⟨c, hcmem, hcsub⟩
      rw [List.nil_append] at hcmem
      exact hni (strictDesc_of_subtree_parent (h.childPar j hj c hcmem).2 hcsub)
    · rw [List.nil_append]
      exact strictDesc_via_child h hj hi hsd

theorem strictDesc_of_parent {nodes : List Node} {i q r : ℕ}
    (hq : (nd nodes i).parentId = some q) (hs : StrictDesc nodes r q) :
    StrictDesc nodes r i := by
  obtain ⟨k, hk⟩ := hs
  refine ⟨k + 1, ?_⟩
  have hstep : parentIter nodes (1 + (k + 1)) i = some r := by
    rw [parentIter_add nodes 1 (k + 1) i, parentIter_one, hq]
    simpa using hk
  rw [show 1 + (k + 1) = (k + 1) + 1 by omega] at hstep
  exact hstep

theorem subtreeOf_of_parent {nodes : List Node} {i q r : ℕ}
    (hq : (nd nodes i).parentId = some q) (hs : SubtreeOf nodes r q) :
    SubtreeOf nodes r i := by
  obtain ⟨k, hk⟩ := hs
  refine ⟨1 + k, ?_⟩
  rw [parentIter_add nodes 1 k i, parentIter_one, hq]
  simpa using hk

/-- Correctness of the re-parenting tail of a rewire iteration: starting from
a well-formed store, when re-routing the neighbor through the new node is a
strict improvement, the result is again well-formed, has the same length, no
cost increases, and any node whose parent pointer changed got strictly
cheaper. -/
theorem rewireAttach_spec (G : Geo) (hd : ∀ a b, 0 ≤ G.dist a b)
    {nodes : List Node} {newNodeId nIdx : ℕ} {newCost : ℚ}
    (h : StoreWF G nodes) (hnew : newNodeId < nodes.length) (hn : nIdx < nodes.length)
    (hnc : newCost =
      (nd nodes newNodeId).cost + G.dist (pos (nd nodes newNodeId)) (pos (nd nodes nIdx)))
    (hlt : newCost < (nd nodes nIdx).cost) :
    StoreWF G (rewireAttach G newNodeId nodes nIdx newCost) ∧
    (rewireAttach G newNodeId nodes nIdx newCost).length = nodes.length ∧
    (∀ i, i < nodes.length →
      (nd (rewireAttach G newNodeId nodes nIdx newCost) i).cost ≤ (nd nodes i).cost) ∧
    (∀ i, i < nodes.length →
      (nd (rewireAttach G newNodeId nodes nIdx newCost) i).parentId ≠ (nd nodes i).parentId →
      (nd (rewireAttach G newNodeId nodes nIdx newCost) i).cost < (nd nodes i).cost) := by
  classical
  obtain ⟨D, hD⟩ := h.acyclic
  have hnwc : 0 ≤ (nd nodes newNodeId).cost := cost_nonneg h hd newNodeId hnew
  have hdistnn := hd (pos (nd nodes newNodeId)) (pos (nd nodes nIdx))
  -- the rewired neighbor is never the root
  have hnb0 : nIdx ≠ 0 := by
    intro he
    rw [he] at hlt
    rw [h.rootCost] at hlt
    linarith
  -- hence it has a parent
  rcases hpo : (nd nodes nIdx).parentId with - | p
  · exact absurd (h.noneRoot nIdx hn hpo) hnb0
  have hplt : p < nodes.length := h.parLt nIdx hn p hpo
  have hpn : p ≠ nIdx := by
    intro he
    have := hD nIdx hn p hpo
    rw [he] at this
    omega
  have hne_self : nIdx ≠ newNodeId := by
    intro he
    rw [← he] at hnc
    have hdd := hd (pos (nd nodes nIdx)) (pos (nd nodes nIdx))
    rw [hnc] at hlt
    linarith
  have hpnew : p ≠ newNodeId := by
    intro he
    have hco := h.costOk nIdx hn p hpo
    rw [he] at hco
    rw [hnc] at hlt
    linarith
  have hnot_anc : ¬ SubtreeOf nodes nIdx newNodeId := by
    rintro ⟨k, hk⟩
    have := cost_ancestor_le h hd k newNodeId nIdx hnew hk
    rw [hnc] at hlt
    linarith
  have hnbrid : (nd nodes nIdx).id = nIdx := h.idOk nIdx hn
  -- name the three mutation stages
  have heq : rewireAttach G newNodeId nodes nIdx newCost =
      updateCost G
        (rwAddChild newNodeId
          (rwReparent newNodeId (rwDetach nodes (nd nodes nIdx)) nIdx newCost)
          (nd nodes nIdx).id).length
        (rwAddChild newNodeId
          (rwReparent newNodeId (rwDetach nodes (nd nodes nIdx)) nIdx newCost)
          (nd nodes nIdx).id)
        (nd nodes nIdx).id := rfl
  rw [hnbrid] at heq
  set n1 := rwDetach nodes (nd nodes nIdx) with hn1def
  set n2 := rwReparent newNodeId n1 nIdx newCost with hn2def
  set n3 := rwAddChild newNodeId n2 nIdx with hn3def
  -- stage 1: detach from the old parent
  have hn1eq : n1 = nodes.set p
      { nd nodes p with
        children := (nd nodes p).children.filter fun c => decide (c ≠ nIdx) } := by
    rw [hn1def]
    simp only [rwDetach, hpo, hnbrid]
  have hlen1 : n1.length = nodes.length := by rw [hn1eq, List.length_set]
  have hnd1_ne : ∀ i, i ≠ p → nd n1 i = nd nodes i := by
    intro i hi
    rw [hn1eq, nd_set_ne _ hi]
  have hnd1_p : nd n1 p =
      { nd nodes p with
        children := (nd nodes p).children.filter fun c => decide (c ≠ nIdx) } := by
    rw [hn1eq, nd_set_self _ hplt]
  -- stage 2: re-parent the neighbor
  have hn2eq : n2 = n1.set nIdx
      { nd nodes nIdx with parentId := some newNodeId, cost := newCost } := by
    rw [hn2def]
    simp only [rwReparent]
    rw [hnd1_ne nIdx hpn.symm]
  have hlen2 : n2.length = nodes.length := by rw [hn2eq, List.length_set, hlen1]
  have hnd2_ne : ∀ i, i ≠ nIdx → nd n2 i = nd n1 i := by
    intro i hi
    rw [hn2eq, nd_set_ne _ hi]
  have hnd2_n : nd n2 nIdx =
      { nd nodes nIdx with parentId := some newNodeId, cost := newCost } := by
    rw [hn2eq]
    exact nd_set_self _ (by rw [hlen1]; exact hn)
  -- stage 3: register the neighbor as a child of the new node
  have hnd2_w : nd n2 newNodeId = nd nodes newNodeId := by
    rw [hnd2_ne newNodeId (Ne.symm hne_self), hnd1_ne newNodeId (Ne.symm hpnew)]
  have hn3eq : n3 = n2.set newNodeId
      { nd nodes newNodeId with
        children := (nd nodes newNodeId).children ++ [nIdx] } := by
    rw [hn3def]
    simp only [rwAddChild]
    rw [hnd2_w]
  have hlen3 : n3.length = nodes.length := by rw [hn3eq, List.length_set, hlen2]
  have hnd3_ne : ∀ i, i ≠ newNodeId → nd n3 i = nd n2 i := by
    intro i hi
    rw [hn3eq, nd_set_ne _ hi]
  have hnd3_w : nd n3 newNodeId =
      { nd nodes newNodeId with
        children := (nd nodes newNodeId).children ++ [nIdx] } := by
    rw [hn3eq]
    exact nd_set_self _ (by rw [hlen2]; exact hnew)
  have hnd3_n : nd n3 nIdx =
      { nd nodes nIdx with parentId := some newNodeId, cost := newCost } := by
    rw [hnd3_ne nIdx hne_self, hnd2_n]
  have hnd3_p : nd n3 p =
      { nd nodes p with
        children := (nd nodes p).children.filter fun c => decide (c ≠ nIdx) } := by
    rw [hnd3_ne p hpnew, hnd2_ne p hpn, hnd1_p]
  have hnd3_other : ∀ i, i ≠ p → i ≠ nIdx → i ≠ newNodeId → nd n3 i = nd nodes i := by
    intro i h1 h2 h3
    rw [hnd3_ne i h3, hnd2_ne i h2, hnd1_ne i h1]
  -- uniform views of the mutated store
  have par3 : ∀ i, i ≠ nIdx → (nd n3 i).parentId = (nd nodes i).parentId := by
    intro i hi
    by_cases h1 : i = p
    · subst h1; simp [hnd3_p]
    by_cases h3 : i = newNodeId
    · subst h3; simp [hnd3_w]
    rw [hnd3_other i h1 hi h3]
  have par3n : (nd n3 nIdx).parentId = some newNodeId := by simp [hnd3_n]
  have cost3 : ∀ i, i ≠ nIdx → (nd n3 i).cost = (nd nodes i).cost := by
    intro i hi
    by_cases h1 : i = p
    · subst h1; simp [hnd3_p]
    by_cases h3 : i = newNodeId
    · subst h3; simp [hnd3_w]
    rw [hnd3_other i h1 hi h3]
  have cost3n : (nd n3 nIdx).cost = newCost := by simp [hnd3_n]
  have id3 : ∀ i, (nd n3 i).id = (nd nodes i).id := by
    intro i
    by_cases h2 : i = nIdx
    · subst h2; simp [hnd3_n]
    by_cases h1 : i = p
    · subst h1; simp [hnd3_p]
    by_cases h3 : i = newNodeId
    · subst h3; simp [hnd3_w]
    rw [hnd3_other i h1 h2 h3]
  have pos3 : ∀ i, pos (nd n3 i) = pos (nd nodes i) := by
    intro i
    by_cases h2 : i = nIdx
    · subst h2; simp [hnd3_n, pos]
    by_cases h1 : i = p
    · subst h1; simp [hnd3_p, pos]
    by_cases h3 : i = newNodeId
    · subst h3; simp [hnd3_w, pos]
    rw [hnd3_other i h1 h2 h3]
  have ch3 : ∀ i, i ≠ p → i ≠ newNodeId → (nd n3 i).children = (nd nodes i).children := by
    intro i h1 h3
    by_cases h2 : i = nIdx
    · subst h2; simp [hnd3_n]
    rw [hnd3_other i h1 h2 h3]
  have ch3p : (nd n3 p).children = (nd nodes p).children.filter fun c => decide (c ≠ nIdx) := by
    simp [hnd3_p]
  have ch3w : (nd n3 newNodeId).children = (nd nodes newNodeId).children ++ [nIdx] := by
    simp [hnd3_w]
  -- the structural invariant of the re-linked store
  have hS3 : StructWF n3 := by
    constructor
    · rw [hlen3]; exact h.len_pos
    · intro i hi
      rw [id3 i]
      exact h.idOk i (by rw [← hlen3]; exact hi)
    · rw [par3 0 (Ne.symm hnb0)]
      exact h.rootPar
    · intro i hi hnone
      by_cases h2 : i = nIdx
      · subst h2; rw [par3n] at hnone; exact absurd hnone (by simp)
      · rw [par3 i h2] at hnone
        exact h.noneRoot i (by rw [← hlen3]; exact hi) hnone
    · intro i hi q hq
      by_cases h2 : i = nIdx
      · subst h2
        rw [par3n] at hq
        rw [hlen3, ← Option.some.inj hq]
        exact hnew
      · rw [par3 i h2] at hq
        rw [hlen3]
        exact h.parLt i (by rw [← hlen3]; exact hi) q hq
    · intro i hi c hc
      rw [hlen3] at hi
      by_cases h1 : i = p
      · subst h1
        rw [ch3p] at hc
        have hmem := List.mem_filter.mp hc
        have hcn : c ≠ nIdx := by simpa using hmem.2
        obtain ⟨hclt, hcpar⟩ := h.childPar i hi c hmem.1
        exact ⟨by rw [hlen3]; exact hclt, by rw [par3 c hcn]; exact hcpar⟩
      by_cases h3 : i = newNodeId
      · subst h3
        rw [ch3w] at hc
        rcases List.mem_append.mp hc with hm | hm
        · obtain ⟨hclt, hcpar⟩ := h.childPar i hi c hm
          have hcn : c ≠ nIdx := by
            intro he
            rw [he, hpo] at hcpar
            exact hpnew (Option.some.inj hcpar)
          exact ⟨by rw [hlen3]; exact hclt, by rw [par3 c hcn]; exact hcpar⟩
        · have hcn : c = nIdx := List.mem_singleton.mp hm
          subst hcn
          exact ⟨by rw [hlen3]; exact hn, par3n⟩
      · have hcmem : c ∈ (nd nodes i).children := by rw [← ch3 i h1 h3]; exact hc
        obtain ⟨hclt, hcpar⟩ := h.childPar i hi c hcmem
        have hcn : c ≠ nIdx := by
          intro he
          rw [he, hpo] at hcpar
          exact h1 (Option.some.inj hcpar).symm
        exact ⟨by rw [hlen3]; exact hclt, by rw [par3 c hcn]; exact hcpar⟩
    · intro i hi c hc hcpar
      rw [hlen3] at hi hc
      by_cases hcn : c = nIdx
      · subst hcn
        rw [par3n] at hcpar
        have hiw : i = newNodeId := (Option.some.inj hcpar).symm
        subst hiw
        rw [ch3w, List.count_append]
        have hzero : (nd nodes i).children.count c = 0 := by
          rw [List.count_eq_zero]
          intro hmem
          have := (h.childPar i hi c hmem).2
          rw [hpo] at this
          exact hpnew (Option.some.inj this)
        rw [hzero]
        simp
      · rw [par3 c hcn] at hcpar
        by_cases h1 : i = p
        · subst h1
          rw [ch3p]
          rw [List.count_filter (by simpa using hcn)]
          exact h.parChild i hi c hc hcpar
        by_cases h3 : i = newNodeId
        · subst h3
          rw [ch3w, List.count_append]
          rw [h.parChild i hi c hc hcpar]
          have : List.count c [nIdx] = 0 := by
            rw [List.count_eq_zero]
            simpa using hcn
          rw [this]
        · rw [ch3 i h1 h3]
          exact h.parChild i hi c hc hcpar
    · -- acyclicity: move the subtree of the neighbor below the new node
      refine ⟨fun d =>
        if SubtreeOf nodes nIdx d then D newNodeId + 1 + (D d - D nIdx) else D d, ?_⟩
      intro i hi q hq
      dsimp only
      rw [hlen3] at hi
      by_cases h2 : i = nIdx
      · rw [h2, par3n] at hq
        have hqw : q = newNodeId := (Option.some.inj hq).symm
        rw [h2, hqw, if_pos (subtreeOf_self nodes nIdx), if_neg hnot_anc]
        omega
      · rw [par3 i h2] at hq
        have hqlt : q < nodes.length := h.parLt i hi q hq
        by_cases hsub : SubtreeOf nodes nIdx i
        · have hsd : StrictDesc nodes nIdx i :=
            ((subtreeOf_iff nodes nIdx i).mp hsub).resolve_left h2
          have hqsub : SubtreeOf nodes nIdx q := subtree_parent_of_strictDesc hq hsd
          rw [if_pos hsub, if_pos hqsub]
          obtain ⟨k, hk⟩ := hsub
          obtain ⟨k2, hk2⟩ := hqsub
          have hdi := (depth_parentIter h.toStructWF hD k i nIdx hi hk).2
          have hdq := (depth_parentIter h.toStructWF hD k2 q nIdx hqlt hk2).2
          have hdiq := hD i hi q hq
          omega
        · have hqnsub : ¬ SubtreeOf nodes nIdx q :=
            fun hs => hsub (subtreeOf_of_parent hq hs)
          rw [if_neg hsub, if_neg hqnsub]
          exact hD i hi q hq
  -- the cost invariant holds in `n3` away from the children of the neighbor
  have costPartial : ∀ i, i < nodes.length → ∀ q, (nd n3 i).parentId = some q → q ≠ nIdx →
      (nd n3 i).cost = (nd n3 q).cost + G.dist (pos (nd nodes q)) (pos (nd nodes i)) := by
    intro i hi q hq hqn
    by_cases h2 : i = nIdx
    · subst h2
      rw [par3n] at hq
      have hqw : q = newNodeId := (Option.some.inj hq).symm
      subst hqw
      rw [cost3n, cost3 q (Ne.symm hne_self), hnc]
    · rw [par3 i h2] at hq
      rw [cost3 i h2, cost3 q hqn]
      exact h.costOk i hi q hq
  -- recompute the neighbor subtree costs
  have hfuel : ∀ d k, parentIter n3 (k + 1) d = some nIdx → k + 1 ≤ n3.length := by
    intro d k hk
    rcases Nat.lt_or_ge d n3.length with hdlt | hdge
    · exact le_of_lt (parentIter_lt_len hS3 hdlt hk)
    · rw [parentIter_of_le hdge] at hk
      exact absurd hk (by simp)
  obtain ⟨uA, uB, uC⟩ := updateCost_spec G n3.length n3 nIdx hS3 (by rw [hlen3]; exact hn) hfuel
  set ns := updateCost G n3.length n3 nIdx with hnsdef
  rw [heq]
  have hlenns : ns.length = nodes.length := by rw [← uA.1, hlen3]
  have posns : ∀ i, pos (nd ns i) = pos (nd nodes i) := by
    intro i
    rw [← uA.pos_eq i, pos3 i]
  have parns : ∀ i, (nd ns i).parentId = (nd n3 i).parentId := by
    intro i
    exact ((uA.2 i).2.2.2.1).symm
  have hnotsd_n : ¬ StrictDesc n3 nIdx nIdx :=
    not_strictDesc_self hS3 (by rw [hlen3]; exact hn)
  have hcostns_n : (nd ns nIdx).cost = newCost := by
    rw [uB nIdx hnotsd_n, cost3n]
  -- strict cost decrease on the whole moved subtree
  have desc_lt : ∀ k, ∀ i, i < nodes.length → parentIter n3 (k + 1) i = some nIdx →
      (nd ns i).cost < (nd nodes i).cost := by
    intro k
    induction k with
    | zero =>
      intro i hi hit
      have hpar : (nd n3 i).parentId = some nIdx := by
        rw [← parentIter_one]; exact hit
      have hine : i ≠ nIdx := by
        intro he
        rw [he, par3n] at hpar
        exact hne_self (Option.some.inj hpar).symm
      have hparo : (nd nodes i).parentId = some nIdx := by
        rw [← par3 i hine]; exact hpar
      have hcost := uC i (by rw [hlen3]; exact hi) nIdx hpar ⟨0, hit⟩
      rw [hcostns_n, pos3 nIdx, pos3 i] at hcost
      have hold := h.costOk i hi nIdx hparo
      rw [hcost, hold]
      linarith
    | succ k ih =>
      intro i hi hit
      have hdecomp : ∃ q, (nd n3 i).parentId = some q ∧ parentIter n3 (k + 1) q = some nIdx := by
        rcases hp3 : (nd n3 i).parentId with - | q
        · rw [show k + 1 + 1 = (k + 1) + 1 by omega] at hit
          simp only [parentIter, hp3] at hit
          exact Option.noConfusion hit
        · refine ⟨q, rfl, ?_⟩
          rw [show k + 1 + 1 = (k + 1) + 1 by omega] at hit
          simp only [parentIter, hp3] at hit
          exact hit
      obtain ⟨q, hq3, hq2⟩ := hdecomp
      have hine : i ≠ nIdx := by
        intro he
        subst he
        have := parentIter_eq_self hS3 (by rw [hlen3]; exact hn) hit
        omega
      have hqlt : q < nodes.length := by
        have := hS3.parLt i (by rw [hlen3]; exact hi) q hq3
        rw [hlen3] at this
        exact this
      have hqcost := ih q hqlt hq2
      have hcost := uC i (by rw [hlen3]; exact hi) q hq3 ⟨k + 1, hit⟩
      rw [pos3 q, pos3 i] at hcost
      have hqo : (nd nodes i).parentId = some q := by
        rw [← par3 i hine]; exact hq3
      have hold := h.costOk i hi q hqo
      rw [hcost, hold]
      linarith
  -- pointwise cost comparison
  have cost_le : ∀ i, i < nodes.length → (nd ns i).cost ≤ (nd nodes i).cost := by
    intro i hi
    by_cases h2 : i = nIdx
    · subst h2
      rw [hcostns_n]
      exact le_of_lt hlt
    by_cases hsd : StrictDesc n3 nIdx i
    · obtain ⟨k, hk⟩ := hsd
      exact le_of_lt (desc_lt k i hi hk)
    · rw [uB i hsd, cost3 i h2]
  refine ⟨?_, by rw [hlenns], fun i hi => cost_le i hi, fun i hi hne => ?_⟩
  · -- the full store invariant after the cascade
    refine ⟨uA.structWF hS3, ?_, ?_⟩
    · have hpar30 : (nd n3 0).parentId = none := by
        rw [par3 0 (Ne.symm hnb0)]
        exact h.rootPar
      have hnsd0 : ¬ StrictDesc n3 nIdx 0 := by
        rintro ⟨k, hk⟩
        simp only [parentIter, hpar30] at hk
        exact Option.noConfusion hk
      rw [uB 0 hnsd0, cost3 0 (Ne.symm hnb0)]
      exact h.rootCost
    · intro i hi q hq
      have hilt : i < nodes.length := by rw [← hlenns]; exact hi
      have hq3 : (nd n3 i).parentId = some q := by rw [← parns i]; exact hq
      by_cases hsd : StrictDesc n3 nIdx i
      · have := uC i (by rw [hlen3]; exact hilt) q hq3 hsd
        rw [pos3 q, pos3 i] at this
        rw [posns q, posns i]
        exact this
      · have hqn : q ≠ nIdx := by
          rintro rfl
          refine hsd ⟨0, ?_⟩
          rw [parentIter_one]
          exact hq3
        have hqnsd : ¬ StrictDesc n3 nIdx q :=
          fun hs => hsd (strictDesc_of_parent hq3 hs)
        rw [uB i hsd, uB q hqnsd, pos3 q, pos3 i]
        exact costPartial i hilt q hq3 hqn
  · -- a changed parent pointer means the node was re-parented to the new node
    have hpns : (nd ns i).parentId = (nd n3 i).parentId := parns i
    by_cases h2 : i = nIdx
    · subst h2
      rw [hcostns_n]
      exact hlt
    · exfalso
      rw [hpns, par3 i h2] at hne
      exact hne rfl

/-- One REWIRE loop iteration preserves the store invariant, never lengthens
the store, never increases any cost, and strictly decreases the cost of any
node whose parent pointer it changes. -/
theorem rewireBody_spec (G : Geo) (hd : ∀ a b, 0 ≤ G.dist a b)
    (obstacles : List Obstacle) {nodes : List Node} {newNodeId nIdx : ℕ}
    (h : StoreWF G nodes) (hnew : newNodeId < nodes.length) (hn : nIdx < nodes.length) :
    StoreWF G (rewireBody G obstacles newNodeId nodes nIdx) ∧
    (rewireBody G obstacles newNodeId nodes nIdx).length = nodes.length ∧
    (∀ i, i < nodes.length →
      (nd (rewireBody G obstacles newNodeId nodes nIdx) i).cost ≤ (nd nodes i).cost) ∧
    (∀ i, i < nodes.length →
      (nd (rewireBody G obstacles newNodeId nodes nIdx) i).parentId ≠ (nd nodes i).parentId →
      (nd (rewireBody G obstacles newNodeId nodes nIdx) i).cost < (nd nodes i).cost) := by
  have hcases : rewireBody G obstacles newNodeId nodes nIdx = nodes ∨
      ((nd nodes newNodeId).cost + G.dist (pos (nd nodes newNodeId)) (pos (nd nodes nIdx)) <
          (nd nodes nIdx).cost ∧
        rewireBody G obstacles newNodeId nodes nIdx =
          rewireAttach G newNodeId nodes nIdx
            ((nd nodes newNodeId).cost +
              G.dist (pos (nd nodes newNodeId)) (pos (nd nodes nIdx)))) := by
    by_cases h1 : (nd nodes newNodeId).parentId = some nIdx
    · left
      simp only [rewireBody]
      rw [if_pos h1]
    by_cases h2 : (nd nodes newNodeId).cost +
        G.dist (pos (nd nodes newNodeId)) (pos (nd nodes nIdx)) < (nd nodes nIdx).cost
    · by_cases h3 : checkCollision G (pos (nd nodes newNodeId)) (pos (nd nodes nIdx))
          obstacles = true
      · left
        simp only [rewireBody]
        rw [if_neg h1, if_pos h2, if_pos h3]
      · right
        refine ⟨h2, ?_⟩
        simp only [rewireBody]
        rw [if_neg h1, if_pos h2, if_neg h3]
    · left
      simp only [rewireBody]
      rw [if_neg h1, if_neg h2]
  rcases hcases with heq | ⟨hlt, heq⟩
  · rw [heq]
    exact ⟨h, rfl, fun i hi => le_refl _, fun i hi hne => absurd rfl hne⟩
  · rw [heq]
    exact rewireAttach_spec G hd h hnew hn rfl hlt

/-- The whole REWIRE loop (a fold of `rewireBody` over the collected
neighbors) preserves the store invariant, never increases any cost, and
strictly decreases the cost of any node whose parent pointer it changed. -/
theorem rewireFold_spec (G : Geo) (hd : ∀ a b, 0 ≤ G.dist a b)
    (obstacles : List Obstacle) (newNodeId : ℕ) :
    ∀ (l : List ℕ) (nodes : List Node), StoreWF G nodes → newNodeId < nodes.length →
    (∀ m ∈ l, m < nodes.length) →
    StoreWF G (l.foldl (rewireBody G obstacles newNodeId) nodes) ∧
    (l.foldl (rewireBody G obstacles newNodeId) nodes).length = nodes.length ∧
    (∀ i, i < nodes.length →
      (nd (l.foldl (rewireBody G obstacles newNodeId) nodes) i).cost ≤ (nd nodes i).cost) ∧
    (∀ i, i < nodes.length →
      (nd (l.foldl (rewireBody G obstacles newNodeId) nodes) i).parentId ≠
        (nd nodes i).parentId →
      (nd (l.foldl (rewireBody G obstacles newNodeId) nodes) i).cost < (nd nodes i).cost) := by
  intro l
  induction l with
  | nil =>
    intro nodes h hnew hb
    exact ⟨h, rfl, fun i hi => le_refl _, fun i hi hne => absurd rfl hne⟩
  | cons m rest ih =>
    intro nodes h hnew hb
    simp only [List.foldl_cons]
    obtain ⟨b1, b2, b3, b4⟩ :=
      rewireBody_spec G hd obstacles h hnew (hb m (List.mem_cons_self m rest))
    obtain ⟨r1, r2, r3, r4⟩ := ih (rewireBody G obstacles newNodeId nodes m) b1
      (by rw [b2]; exact hnew)
      (fun x hx => by rw [b2]; exact hb x (List.mem_cons_of_mem m hx))
    refine ⟨r1, by rw [r2, b2], fun i hi => ?_, fun i hi hne => ?_⟩
    · exact le_trans (r3 i (by rw [b2]; exact hi)) (b3 i hi)
    · by_cases hpb : (nd (rewireBody G obstacles newNodeId nodes m) i).parentId =
          (nd nodes i).parentId
      · have hch : (nd (rest.foldl (rewireBody G obstacles newNodeId)
            (rewireBody G obstacles newNodeId nodes m)) i).parentId ≠
            (nd (rewireBody G obstacles newNodeId nodes m) i).parentId := by
          rw [hpb]
          exact hne
        exact lt_of_lt_of_le (r4 i (by rw [b2]; exact hi) hch) (b3 i hi)
      · exact lt_of_le_of_lt (r3 i (by rw [b2]; exact hi)) (b4 i hi hpb)

/-- The NEAREST scan returns an in-range index on a nonempty store. -/
theorem nearestIndex_lt (G : Geo) (s : Point) (nodes : List Node) (h : 0 < nodes.length) :
    nearestIndex G s nodes < nodes.length := by
  unfold nearestIndex
  have haux : ∀ (l : List ℕ) (b : ℕ), b < nodes.length → (∀ x ∈ l, x < nodes.length) →
      l.foldl (fun best i =>
        if G.dist (pos (nd nodes i)) s < G.dist (pos (nd nodes best)) s then i else best) b
        < nodes.length := by
    intro l
    induction l with
    | nil => intro b hb _; exact hb
    | cons x rest ihl =>
      intro b hb hl
      simp only [List.foldl_cons]
      by_cases hc : G.dist (pos (nd nodes x)) s < G.dist (pos (nd nodes b)) s
      · rw [if_pos hc]
        exact ihl x (hl x (List.mem_cons_self x rest))
          (fun y hy => hl y (List.mem_cons_of_mem x hy))
      · rw [if_neg hc]
        exact ihl b hb (fun y hy => hl y (List.mem_cons_of_mem x hy))
  exact haux (List.range nodes.length) 0 h (fun x hx => List.mem_range.mp hx)

theorem choosePair_nil (G : Geo) (np : Point) (obstacles : List Obstacle)
    (nodes : List Node) (init : ℕ × ℚ) :
    choosePair G np obstacles nodes [] init = init := rfl

theorem choosePair_cons (G : Geo) (np : Point) (obstacles : List Obstacle)
    (nodes : List Node) (x : ℕ) (rest : List ℕ) (init : ℕ × ℚ) :
    choosePair G np obstacles nodes (x :: rest) init =
      choosePair G np obstacles nodes rest
        (if (nd nodes x).cost + G.dist (pos (nd nodes x)) np < init.2 then
          if checkCollision G (pos (nd nodes x)) np obstacles then init
          else (x, (nd nodes x).cost + G.dist (pos (nd nodes x)) np)
        else init) := rfl

/-- The chosen parent is the initial one or one of the scanned neighbors. -/
theorem choosePair_mem (G : Geo) (np : Point) (obstacles : List Obstacle)
    (nodes : List Node) :
    ∀ (l : List ℕ) (init : ℕ × ℚ),
      (choosePair G np obstacles nodes l init).1 = init.1 ∨
      (choosePair G np obstacles nodes l init).1 ∈ l := by
  intro l
  induction l with
  | nil => intro init; exact Or.inl rfl
  | cons x rest ih =>
    intro init
    rw [choosePair_cons]
    by_cases h1 : (nd nodes x).cost + G.dist (pos (nd nodes x)) np < init.2
    · rw [if_pos h1]
      by_cases h2 : checkCollision G (pos (nd nodes x)) np obstacles = true
      · rw [if_pos h2]
        rcases ih init with hl | hr
        · exact Or.inl hl
        · exact Or.inr (List.mem_cons_of_mem x hr)
      · rw [if_neg h2]
        rcases ih (x, (nd nodes x).cost + G.dist (pos (nd nodes x)) np) with hl | hr
        · exact Or.inr (by rw [hl]; exact List.mem_cons_self x rest)
        · exact Or.inr (List.mem_cons_of_mem x hr)
    · rw [if_neg h1]
      rcases ih init with hl | hr
      · exact Or.inl hl
      · exact Or.inr (List.mem_cons_of_mem x hr)

/-! ## Unfolding lemmas for the micro-step state machine -/

theorem stepMicro_sat {G : Geo} {coin : Bool} {u : Point} {t : RRTTree}
    (hsat : t.params.maxIterations ≤ t.nodes.length) :
    stepMicro G coin u t = (t, false) := by
  unfold stepMicro
  rw [if_pos hsat]

theorem stepMicro_SAMPLE {G : Geo} {coin : Bool} {u : Point} {t : RRTTree}
    (hsat : t.nodes.length < t.params.maxIterations) (hms : t.microState = .SAMPLE) :
    stepMicro G coin u t =
      ({ t with tempSample := some (if coin then t.goal else u), microState := .NEAREST },
        true) := by
  unfold stepMicro
  rw [if_neg (not_le.mpr hsat), hms]

theorem stepMicro_NEAREST_none {G : Geo} {coin : Bool} {u : Point} {t : RRTTree}
    (hsat : t.nodes.length < t.params.maxIterations) (hms : t.microState = .NEAREST)
    (hts : t.tempSample = none) :
    stepMicro G coin u t = ({ t with microState := .SAMPLE }, true) := by
  unfold stepMicro
  rw [if_neg (not_le.mpr hsat), hms, hts]

theorem stepMicro_NEAREST {G : Geo} {coin : Bool} {u : Point} {t : RRTTree} {s : Point}
    (hsat : t.nodes.length < t.params.maxIterations) (hms : t.microState = .NEAREST)
    (hts : t.tempSample = some s) :
    stepMicro G coin u t =
      ({ t with tempNearestNode := some (nd t.nodes (nearestIndex G s t.nodes)),
                microState := .STEER }, true) := by
  unfold stepMicro
  rw [if_neg (not_le.mpr hsat), hms, hts]

theorem stepMicro_STEER {G : Geo} {coin : Bool} {u : Point} {t : RRTTree} {nr : Node}
    {s : Point}
    (hsat : t.nodes.length < t.params.maxIterations) (hms : t.microState = .STEER)
    (hnn : t.tempNearestNode = some nr) (hts : t.tempSample = some s) :
    stepMicro G coin u t =
      ({ t with tempNewPoint := some (steer G (pos nr) s t.params.stepSize),
                microState := .COLLISION_CHECK }, true) := by
  unfold stepMicro
  rw [if_neg (not_le.mpr hsat), hms, hnn, hts]

theorem stepMicro_STEER_guard {G : Geo} {coin : Bool} {u : Point} {t : RRTTree}
    (hsat : t.nodes.length < t.params.maxIterations) (hms : t.microState = .STEER)
    (hg : t.tempNearestNode = none ∨ t.tempSample = none) :
    stepMicro G coin u t = ({ t with microState := .SAMPLE }, true) := by
  unfold stepMicro
  rw [if_neg (not_le.mpr hsat), hms]
  rcases hg with hg | hg
  · rw [hg]
  · rcases hx : t.tempNearestNode with - | nr <;> rw [hg]

theorem stepMicro_CC_hit {G : Geo} {coin : Bool} {u : Point} {t : RRTTree} {nr : Node}
    {np : Point}
    (hsat : t.nodes.length < t.params.maxIterations) (hms : t.microState = .COLLISION_CHECK)
    (hnn : t.tempNearestNode = some nr) (hnp : t.tempNewPoint = some np)
    (hcol : checkCollision G (pos nr) np t.obstacles = true) :
    stepMicro G coin u t = ({ resetTemp t with microState := .SAMPLE }, false) := by
  unfold stepMicro
  rw [if_neg (not_le.mpr hsat), hms, hnn, hnp]
  simp only [hcol, if_true]

theorem stepMicro_CC_free_star {G : Geo} {coin : Bool} {u : Point} {t : RRTTree} {nr : Node}
    {np : Point}
    (hsat : t.nodes.length < t.params.maxIterations) (hms : t.microState = .COLLISION_CHECK)
    (hnn : t.tempNearestNode = some nr) (hnp : t.tempNewPoint = some np)
    (hcol : checkCollision G (pos nr) np t.obstacles = false)
    (halg : t.algorithm = .RRTStar) :
    stepMicro G coin u t = ({ t with microState := .NEIGHBORS }, true) := by
  unfold stepMicro
  rw [if_neg (not_le.mpr hsat), hms, hnn, hnp]
  simp only [hcol, halg, if_true, Bool.false_eq_true, if_false, reduceIte]

theorem stepMicro_CC_free_rrt {G : Geo} {coin : Bool} {u : Point} {t : RRTTree} {nr : Node}
    {np : Point}
    (hsat : t.nodes.length < t.params.maxIterations) (hms : t.microState = .COLLISION_CHECK)
    (hnn : t.tempNearestNode = some nr) (hnp : t.tempNewPoint = some np)
    (hcol : checkCollision G (pos nr) np t.obstacles = false)
    (halg : t.algorithm ≠ .RRTStar) :
    stepMicro G coin u t = ({ t with microState := .ADD_NODE }, true) := by
  unfold stepMicro
  rw [if_neg (not_le.mpr hsat), hms, hnn, hnp]
  simp only [hcol, Bool.false_eq_true, if_false, if_neg halg, reduceIte]

theorem stepMicro_CC_guard {G : Geo} {coin : Bool} {u : Point} {t : RRTTree}
    (hsat : t.nodes.length < t.params.maxIterations) (hms : t.microState = .COLLISION_CHECK)
    (hg : t.tempNearestNode = none ∨ t.tempNewPoint = none) :
    stepMicro G coin u t = ({ t with microState := .SAMPLE }, true) := by
  unfold stepMicro
  rw [if_neg (not_le.mpr hsat), hms]
  rcases hg with hg | hg
  · rw [hg]
  · rcases hx : t.tempNearestNode with - | nr <;> rw [hg]

theorem stepMicro_NEIGHBORS {G : Geo} {coin : Bool} {u : Point} {t : RRTTree} {np : Point}
    (hsat : t.nodes.length < t.params.maxIterations) (hms : t.microState = .NEIGHBORS)
    (hnp : t.tempNewPoint = some np) :
    stepMicro G coin u t =
      ({ t with
          tempNeighbors := (List.range t.nodes.length).filter fun i =>
            decide (G.dist (pos (nd t.nodes i)) np ≤ t.params.searchRadius),
          microState := .CHOOSE_PARENT }, true) := by
  unfold stepMicro
  rw [if_neg (not_le.mpr hsat), hms, hnp]

theorem stepMicro_NEIGHBORS_guard {G : Geo} {coin : Bool} {u : Point} {t : RRTTree}
    (hsat : t.nodes.length < t.params.maxIterations) (hms : t.microState = .NEIGHBORS)
    (hnp : t.tempNewPoint = none) :
    stepMicro G coin u t = ({ t with microState := .SAMPLE }, true) := by
  unfold stepMicro
  rw [if_neg (not_le.mpr hsat), hms, hnp]

theorem stepMicro_CP {G : Geo} {coin : Bool} {u : Point} {t : RRTTree} {np : Point}
    {nr : Node}
    (hsat : t.nodes.length < t.params.maxIterations) (hms : t.microState = .CHOOSE_PARENT)
    (hnp : t.tempNewPoint = some np) (hnn : t.tempNearestNode = some nr) :
    stepMicro G coin u t =
      ({ t with
          tempBestParent := some (choosePair G np t.obstacles t.nodes t.tempNeighbors
            (nr.id, nr.cost + G.dist (pos nr) np)).1,
          microState := .ADD_NODE }, true) := by
  unfold stepMicro
  rw [if_neg (not_le.mpr hsat), hms, hnp, hnn]

theorem stepMicro_CP_guard {G : Geo} {coin : Bool} {u : Point} {t : RRTTree}
    (hsat : t.nodes.length < t.params.maxIterations) (hms : t.microState = .CHOOSE_PARENT)
    (hg : t.tempNewPoint = none ∨ t.tempNearestNode = none) :
    stepMicro G coin u t = ({ t with microState := .SAMPLE }, true) := by
  unfold stepMicro
  rw [if_neg (not_le.mpr hsat), hms]
  rcases hg with hg | hg
  · rw [hg]
  · rcases hx : t.tempNewPoint with - | np <;> rw [hg]

theorem stepMicro_ADD_star {G : Geo} {coin : Bool} {u : Point} {t : RRTTree} {np : Point}
    (hsat : t.nodes.length < t.params.maxIterations) (hms : t.microState = .ADD_NODE)
    (hnp : t.tempNewPoint = some np) (halg : t.algorithm = .RRTStar) :
    stepMicro G coin u t =
      ({ t with nodes := addNodeStore G t.nodes np (finalParent t),
                microState := .REWIRE }, true) := by
  unfold stepMicro
  rw [if_neg (not_le.mpr hsat), hms, hnp]
  simp only [halg, if_true, reduceIte]

theorem stepMicro_ADD_rrt {G : Geo} {coin : Bool} {u : Point} {t : RRTTree} {np : Point}
    (hsat : t.nodes.length < t.params.maxIterations) (hms : t.microState = .ADD_NODE)
    (hnp : t.tempNewPoint = some np) (halg : t.algorithm ≠ .RRTStar) :
    stepMicro G coin u t =
      ({ resetTemp { t with nodes := addNodeStore G t.nodes np (finalParent t) } with
          microState := .SAMPLE }, false) := by
  unfold stepMicro
  rw [if_neg (not_le.mpr hsat), hms, hnp]
  simp only [if_neg halg]

theorem stepMicro_ADD_guard {G : Geo} {coin : Bool} {u : Point} {t : RRTTree}
    (hsat : t.nodes.length < t.params.maxIterations) (hms : t.microState = .ADD_NODE)
    (hnp : t.tempNewPoint = none) :
    stepMicro G coin u t = ({ t with microState := .SAMPLE }, true) := by
  unfold stepMicro
  rw [if_neg (not_le.mpr hsat), hms, hnp]

theorem stepMicro_REWIRE_star {G : Geo} {coin : Bool} {u : Point} {t : RRTTree} {np : Point}
    (hsat : t.nodes.length < t.params.maxIterations) (hms : t.microState = .REWIRE)
    (halg : t.algorithm = .RRTStar) (hnp : t.tempNewPoint = some np) :
    stepMicro G coin u t =
      ({ resetTemp { t with nodes := rewireStore G t.obstacles t.nodes t.tempNeighbors } with
          microState := .SAMPLE }, false) := by
  unfold stepMicro
  rw [if_neg (not_le.mpr hsat), hms, hnp]
  simp only [halg, if_true, reduceIte]

theorem stepMicro_REWIRE_skip {G : Geo} {coin : Bool} {u : Point} {t : RRTTree}
    (hsat : t.nodes.length < t.params.maxIterations) (hms : t.microState = .REWIRE)
    (hg : t.algorithm ≠ .RRTStar ∨ t.tempNewPoint = none) :
    stepMicro G coin u t = ({ resetTemp t with microState := .SAMPLE }, false) := by
  unfold stepMicro
  rw [if_neg (not_le.mpr hsat), hms]
  rcases hg with hg | hg
  · simp only [if_neg hg]
  · rw [hg]
    by_cases halg : t.algorithm = .RRTStar
    · simp only [halg, if_true, reduceIte]
    · simp only [if_neg halg]

/-! ## Preservation of the invariants by one micro-step -/

theorem addNodeStore_length (G : Geo) (nodes : List Node) (np : Point) (fp : ℕ) :
    (addNodeStore G nodes np fp).length = nodes.length + 1 := by
  simp only [addNodeStore, List.length_set, List.length_append, List.length_singleton]

theorem rewireStore_length (G : Geo) (hd : ∀ a b, 0 ≤ G.dist a b)
    (obstacles : List Obstacle) {nodes : List Node} {neighbors : List ℕ}
    (h : StoreWF G nodes) (hb : ∀ m ∈ neighbors, m < nodes.length) :
    (rewireStore G obstacles nodes neighbors).length = nodes.length :=
  (rewireFold_spec G hd obstacles (nodes.length - 1) neighbors nodes h
    (by have := h.len_pos; omega) hb).2.1

theorem addNodeStore_wf (G : Geo) {nodes : List Node} (h : StoreWF G nodes)
    (np : Point) {fp : ℕ} (hfp : fp < nodes.length) :
    StoreWF G (addNodeStore G nodes np fp) := by
  obtain ⟨D, hD⟩ := h.acyclic
  set L := nodes.length with hL
  set nn : Node := { id := L, x := np.x, y := np.y, parentId := some fp,
                     cost := (nd nodes fp).cost + G.dist (pos (nd nodes fp)) np,
                     children := [] } with hnn
  set n1 := nodes ++ [nn] with hn1
  have heq : addNodeStore G nodes np fp =
      n1.set fp { nd n1 fp with children := (nd n1 fp).children ++ [L] } := rfl
  have hlen1 : n1.length = L + 1 := by
    rw [hn1, List.length_append, List.length_singleton]
  have hfpne : fp ≠ L := Nat.ne_of_lt hfp
  have hnd1_lt : ∀ i, i < L → nd n1 i = nd nodes i := fun i hi => nd_append_lt nn hi
  have hnd1_L : nd n1 L = nn := nd_append_len nodes nn
  set n2 := n1.set fp { nd n1 fp with children := (nd n1 fp).children ++ [L] } with hn2
  have hlen2 : n2.length = L + 1 := by rw [hn2, List.length_set, hlen1]
  have hnd2_fp : nd n2 fp =
      { nd nodes fp with children := (nd nodes fp).children ++ [L] } := by
    rw [hn2, nd_set_self _ (by rw [hlen1]; omega), hnd1_lt fp hfp]
  have hnd2_ne : ∀ i, i ≠ fp → nd n2 i = nd n1 i := by
    intro i hi
    rw [hn2, nd_set_ne _ hi]
  have hnd2_L : nd n2 L = nn := by rw [hnd2_ne L (Ne.symm hfpne), hnd1_L]
  have hnd2_lt : ∀ i, i < L → i ≠ fp → nd n2 i = nd nodes i := by
    intro i hi hne
    rw [hnd2_ne i hne, hnd1_lt i hi]
  have hsplit : ∀ i, i < L + 1 → i = L ∨ i < L := by omega
  rw [heq.trans hn2.symm]
  have par2 : ∀ i, i < L → (nd n2 i).parentId = (nd nodes i).parentId := by
    intro i hi
    by_cases hie : i = fp
    · subst hie; rw [hnd2_fp]
    · rw [hnd2_lt i hi hie]
  have cost2 : ∀ i, i < L → (nd n2 i).cost = (nd nodes i).cost := by
    intro i hi
    by_cases hie : i = fp
    · subst hie; rw [hnd2_fp]
    · rw [hnd2_lt i hi hie]
  have pos2 : ∀ i, i < L → pos (nd n2 i) = pos (nd nodes i) := by
    intro i hi
    by_cases hie : i = fp
    · subst hie; simp [hnd2_fp, pos]
    · rw [hnd2_lt i hi hie]
  constructor
  -- structural part
  case toStructWF =>
    constructor
    · rw [hlen2]; omega
    · intro i hi
      rw [hlen2] at hi
      rcases hsplit i hi with rfl | hi'
      · rw [hnd2_L]
      · by_cases hie : i = fp
        · subst hie
          rw [hnd2_fp]
          exact h.idOk i hfp
        · rw [hnd2_lt i hi' hie]
          exact h.idOk i hi'
    · rw [par2 0 h.len_pos]
      exact h.rootPar
    · intro i hi hnone
      rw [hlen2] at hi
      rcases hsplit i hi with rfl | hi'
      · rw [hnd2_L] at hnone
        exact absurd hnone (by simp [hnn])
      · rw [par2 i hi'] at hnone
        exact h.noneRoot i hi' hnone
    · intro i hi q hq
      rw [hlen2] at hi
      rw [hlen2]
      rcases hsplit i hi with rfl | hi'
      · rw [hnd2_L] at hq
        have : q = fp := by
          have : nn.parentId = some fp := by rw [hnn]
          rw [this] at hq
          exact (Option.some.inj hq).symm
        omega
      · rw [par2 i hi'] at hq
        have := h.parLt i hi' q hq
        omega
    · intro i hi c hc
      rw [hlen2] at hi
      rcases hsplit i hi with rfl | hi'
      · rw [hnd2_L] at hc
        exact absurd hc (by simp [hnn])
      · by_cases hie : i = fp
        · subst hie
          rw [hnd2_fp] at hc
          rcases List.mem_append.mp hc with hm | hm
          · obtain ⟨hclt, hcp⟩ := h.childPar i hfp c hm
            refine ⟨by rw [hlen2]; omega, ?_⟩
            rw [par2 c hclt]
            exact hcp
          · have hcL : c = L := List.mem_singleton.mp hm
            subst hcL
            refine ⟨by rw [hlen2]; omega, ?_⟩
            rw [hnd2_L, hnn]
        · rw [hnd2_lt i hi' hie] at hc
          obtain ⟨hclt, hcp⟩ := h.childPar i hi' c hc
          refine ⟨by rw [hlen2]; omega, ?_⟩
          rw [par2 c hclt]
          exact hcp
    · intro i hi c hc hcp
      rw [hlen2] at hi hc
      rcases hsplit c hc with rfl | hc'
      · -- the new node: child of exactly its parent fp
        rw [hnd2_L] at hcp
        have hifp : i = fp := by
          have hpn : nn.parentId = some fp := by rw [hnn]
          rw [hpn] at hcp
          exact (Option.some.inj hcp).symm
        subst hifp
        rw [hnd2_fp]
        show ((nd nodes i).children ++ [L]).count L = 1
        rw [List.count_append]
        have hz : (nd nodes i).children.count L = 0 := by
          rw [List.count_eq_zero]
          intro hmem
          have := (h.childPar i hfp L hmem).1
          omega
        rw [hz]
        simp
      · rw [par2 c hc'] at hcp
        have hilt : i < L := by
          have := h.parLt c hc' i hcp
          exact this
        by_cases hie : i = fp
        · subst hie
          rw [hnd2_fp]
          show ((nd nodes i).children ++ [L]).count c = 1
          rw [List.count_append]
          rw [h.parChild i hfp c hc' hcp]
          have hz : List.count c [L] = 0 := by
            rw [List.count_eq_zero]
            intro hmem
            have : c = L := List.mem_singleton.mp hmem
            omega
          rw [hz]
        · rw [hnd2_lt i hilt hie]
          exact h.parChild i hilt c hc' hcp
    · refine ⟨fun i => if i = L then D fp + 1 else D i, ?_⟩
      intro i hi q hq
      dsimp only
      rw [hlen2] at hi
      rcases hsplit i hi with rfl | hi'
      · rw [hnd2_L] at hq
        have hqfp : q = fp := by
          have hpn : nn.parentId = some fp := by rw [hnn]
          rw [hpn] at hq
          exact (Option.some.inj hq).symm
        subst hqfp
        rw [if_pos rfl, if_neg hfpne]
      · rw [par2 i hi'] at hq
        have hqlt := h.parLt i hi' q hq
        rw [if_neg (by omega : ¬ i = L), if_neg (by omega : ¬ q = L)]
        exact hD i hi' q hq
  -- cost part
  case rootCost =>
    rw [cost2 0 h.len_pos]
    exact h.rootCost
  case costOk =>
    intro i hi q hq
    rw [hlen2] at hi
    rcases hsplit i hi with rfl | hi'
    · rw [hnd2_L] at hq ⊢
      have hqfp : q = fp := by
        have hpn : nn.parentId = some fp := by rw [hnn]
        rw [hpn] at hq
        exact (Option.some.inj hq).symm
      subst hqfp
      rw [cost2 q hfp, pos2 q hfp]
      show nn.cost = (nd nodes q).cost + G.dist (pos (nd nodes q)) (pos nn)
      rw [hnn]
      rfl
    · rw [par2 i hi'] at hq
      have hqlt := h.parLt i hi' q hq
      rw [cost2 i hi', cost2 q hqlt, pos2 q hqlt, pos2 i hi']
      exact h.costOk i hi' q hq

/-- The ADD_NODE parent index is in range for a well-formed planner state. -/
theorem finalParent_lt {G : Geo} {t : RRTTree} (h : WF G t) :
    finalParent t < t.nodes.length := by
  unfold finalParent
  have hfp0 : (t.tempNearestNode.map Node.id).getD 0 < t.nodes.length := by
    rcases hnn : t.tempNearestNode with - | n
    · exact h.store.len_pos
    · exact h.nearLt n hnn
  by_cases halg : t.algorithm = .RRTStar
  · rw [if_pos halg]
    rcases hbp : t.tempBestParent with - | b
    · exact hfp0
    · exact h.bestLt b hbp
  · rw [if_neg halg]
    exact hfp0

/-- A planner whose scratch was cleared satisfies the scratch conditions
vacuously. -/
theorem WF_resetTemp {G : Geo} {t : RRTTree} (ms : CodeStep) (h : StoreWF G t.nodes) :
    WF G { resetTemp t with microState := ms } := by
  constructor
  · simpa [resetTemp] using h
  · intro n hn
    simp [resetTemp] at hn
  · intro b hb
    simp [resetTemp] at hb
  · intro m hm
    simp [resetTemp] at hm

/-- Every micro-step preserves the planner invariant. -/
theorem stepMicro_WF (G : Geo) (hd : ∀ a b, 0 ≤ G.dist a b) (coin : Bool) (u : Point)
    {t : RRTTree} (h : WF G t) : WF G (stepMicro G coin u t).1 := by
  have htriv : WF G t := h
  by_cases hsat : t.params.maxIterations ≤ t.nodes.length
  · rw [stepMicro_sat hsat]
    exact h
  have hlt : t.nodes.length < t.params.maxIterations := not_le.mp hsat
  have hempty : ∀ (n : Node), (none : Option Node) = some n → n.id < t.nodes.length :=
    fun n hn => Option.noConfusion hn
  cases hms : t.microState with
  | SAMPLE =>
    rw [stepMicro_SAMPLE hlt hms]
    exact ⟨h.store, h.nearLt, h.bestLt, h.nbrLt⟩
  | NEAREST =>
    cases hts : t.tempSample with
    | none =>
      rw [stepMicro_NEAREST_none hlt hms hts]
      exact ⟨h.store, h.nearLt, h.bestLt, h.nbrLt⟩
    | some s =>
      rw [stepMicro_NEAREST hlt hms hts]
      refine ⟨h.store, ?_, h.bestLt, h.nbrLt⟩
      intro n hn
      have hnval : n = nd t.nodes (nearestIndex G s t.nodes) := (Option.some.inj hn).symm
      rw [hnval, h.store.idOk _ (nearestIndex_lt G s t.nodes h.store.len_pos)]
      exact nearestIndex_lt G s t.nodes h.store.len_pos
  | STEER =>
    cases hnn : t.tempNearestNode with
    | none =>
      rw [stepMicro_STEER_guard hlt hms (Or.inl hnn)]
      exact ⟨h.store, h.nearLt, h.bestLt, h.nbrLt⟩
    | some nr =>
      cases hts : t.tempSample with
      | none =>
        rw [stepMicro_STEER_guard hlt hms (Or.inr hts)]
        exact ⟨h.store, h.nearLt, h.bestLt, h.nbrLt⟩
      | some s =>
        rw [stepMicro_STEER hlt hms hnn hts]
        exact ⟨h.store, h.nearLt, h.bestLt, h.nbrLt⟩
  | COLLISION_CHECK =>
    cases hnn : t.tempNearestNode with
    | none =>
      rw [stepMicro_CC_guard hlt hms (Or.inl hnn)]
      exact ⟨h.store, h.nearLt, h.bestLt, h.nbrLt⟩
    | some nr =>
      cases hnp : t.tempNewPoint with
      | none =>
        rw [stepMicro_CC_guard hlt hms (Or.inr hnp)]
        exact ⟨h.store, h.nearLt, h.bestLt, h.nbrLt⟩
      | some np =>
        by_cases hcol : checkCollision G (pos nr) np t.obstacles = true
        · rw [stepMicro_CC_hit hlt hms hnn hnp hcol]
          exact WF_resetTemp .SAMPLE h.store
        · have hcolf : checkCollision G (pos nr) np t.obstacles = false := by
            revert hcol
            cases checkCollision G (pos nr) np t.obstacles <;> simp
          by_cases halg : t.algorithm = .RRTStar
          · rw [stepMicro_CC_free_star hlt hms hnn hnp hcolf halg]
            exact ⟨h.store, h.nearLt, h.bestLt, h.nbrLt⟩
          · rw [stepMicro_CC_free_rrt hlt hms hnn hnp hcolf halg]
            exact ⟨h.store, h.nearLt, h.bestLt, h.nbrLt⟩
  | NEIGHBORS =>
    cases hnp : t.tempNewPoint with
    | none =>
      rw [stepMicro_NEIGHBORS_guard hlt hms hnp]
      exact ⟨h.store, h.nearLt, h.bestLt, h.nbrLt⟩
    | some np =>
      rw [stepMicro_NEIGHBORS hlt hms hnp]
      refine ⟨h.store, h.nearLt, h.bestLt, ?_⟩
      intro m hm
      have := List.mem_filter.mp hm
      exact List.mem_range.mp this.1
  | CHOOSE_PARENT =>
    cases hnp : t.tempNewPoint with
    | none =>
      rw [stepMicro_CP_guard hlt hms (Or.inl hnp)]
      exact ⟨h.store, h.nearLt, h.bestLt, h.nbrLt⟩
    | some np =>
      cases hnn : t.tempNearestNode with
      | none =>
        rw [stepMicro_CP_guard hlt hms (Or.inr hnn)]
        exact ⟨h.store, h.nearLt, h.bestLt, h.nbrLt⟩
      | some nr =>
        rw [stepMicro_CP hlt hms hnp hnn]
        refine ⟨h.store, h.nearLt, ?_, h.nbrLt⟩
        intro b hb
        have hbval : b = (choosePair G np t.obstacles t.nodes t.tempNeighbors
            (nr.id, nr.cost + G.dist (pos nr) np)).1 := (Option.some.inj hb).symm
        rcases choosePair_mem G np t.obstacles t.nodes t.tempNeighbors
            (nr.id, nr.cost + G.dist (pos nr) np) with hc | hc
        · rw [hbval, hc]
          exact h.nearLt nr hnn
        · rw [hbval]
          exact h.nbrLt _ hc
  | ADD_NODE =>
    cases hnp : t.tempNewPoint with
    | none =>
      rw [stepMicro_ADD_guard hlt hms hnp]
      exact ⟨h.store, h.nearLt, h.bestLt, h.nbrLt⟩
    | some np =>
      have hstore := addNodeStore_wf G h.store np (finalParent_lt h)
      have hlen := addNodeStore_length G t.nodes np (finalParent t)
      by_cases halg : t.algorithm = .RRTStar
      · rw [stepMicro_ADD_star hlt hms hnp halg]
        refine ⟨hstore, ?_, ?_, ?_⟩
        · intro n hn
          rw [hlen]
          have := h.nearLt n hn
          omega
        · intro b hb
          rw [hlen]
          have := h.bestLt b hb
          omega
        · intro m hm
          rw [hlen]
          have := h.nbrLt m hm
          omega
      · rw [stepMicro_ADD_rrt hlt hms hnp halg]
        exact WF_resetTemp .SAMPLE hstore
  | REWIRE =>
    by_cases halg : t.algorithm = .RRTStar
    · cases hnp : t.tempNewPoint with
      | none =>
        rw [stepMicro_REWIRE_skip hlt hms (Or.inr hnp)]
        exact WF_resetTemp .SAMPLE h.store
      | some np =>
        rw [stepMicro_REWIRE_star hlt hms halg hnp]
        have hnewlt : t.nodes.length - 1 < t.nodes.length := by
          have := h.store.len_pos
          omega
        obtain ⟨r1, r2, r3, r4⟩ := rewireFold_spec G hd t.obstacles (t.nodes.length - 1)
          t.tempNeighbors t.nodes h.store hnewlt h.nbrLt
        exact WF_resetTemp .SAMPLE r1
    · rw [stepMicro_REWIRE_skip hlt hms (Or.inl halg)]
      exact WF_resetTemp .SAMPLE h.store

/-! ## Construction and iterated stepping -/

/-- Assemble `StoreWF` from finitely checkable conditions (every unbounded
quantifier over a parent index is replaced by a bounded one, justified by
the in-range condition on parent pointers). -/
theorem storeWF_of_bounded {G : Geo} {nodes : List Node}
    (h1 : 0 < nodes.length)
    (h2 : ∀ i < nodes.length, (nd nodes i).id = i)
    (h3 : (nd nodes 0).parentId = none)
    (h4 : ∀ i < nodes.length, (nd nodes i).parentId = none → i = 0)
    (h5 : ∀ i < nodes.length, (nd nodes i).parentId.getD 0 < nodes.length)
    (h6 : ∀ i < nodes.length, ∀ c ∈ (nd nodes i).children,
      c < nodes.length ∧ (nd nodes c).parentId = some i)
    (h7 : ∀ i < nodes.length, ∀ c < nodes.length,
      (nd nodes c).parentId = some i → (nd nodes i).children.count c = 1)
    (h8 : (nd nodes 0).cost = 0)
    (h9 : ∀ i < nodes.length, ∀ p < nodes.length, (nd nodes i).parentId = some p →
      (nd nodes i).cost = (nd nodes p).cost + G.dist (pos (nd nodes p)) (pos (nd nodes i)))
    (D : ℕ → ℕ)
    (h10 : ∀ i < nodes.length, ∀ p < nodes.length, (nd nodes i).parentId = some p →
      D i = D p + 1) :
    StoreWF G nodes := by
  have hparLt : ∀ i < nodes.length, ∀ p, (nd nodes i).parentId = some p →
      p < nodes.length := by
    intro i hi p hp
    have := h5 i hi
    rw [hp] at this
    exact this
  exact
    { len_pos := h1, idOk := h2, rootPar := h3, noneRoot := h4, parLt := hparLt,
      childPar := h6, parChild := h7,
      acyclic := ⟨D, fun i hi p hp => h10 i hi p (hparLt i hi p hp) hp⟩,
      rootCost := h8,
      costOk := fun i hi p hp => h9 i hi p (hparLt i hi p hp) hp }

/-- A freshly constructed planner satisfies the invariant. -/
theorem construct_WF (G : Geo) (width height : ℚ) (start goal : Point)
    (obstacles : List Obstacle) (params : SolverParams) (algorithm : AlgorithmType) :
    WF G (construct width height start goal obstacles params algorithm) := by
  refine ⟨?_, fun n hn => Option.noConfusion hn, fun b hb => Option.noConfusion hb,
    fun m hm => absurd hm (List.not_mem_nil m)⟩
  refine storeWF_of_bounded Nat.one_pos ?_ rfl ?_ ?_ ?_ ?_ rfl ?_ (fun _ => 0) ?_
  · intro i hi
    have : i = 0 := by simpa using Nat.lt_one_iff.mp hi
    subst this
    rfl
  · intro i hi _
    simpa using Nat.lt_one_iff.mp hi
  · intro i hi
    have : i = 0 := by simpa using Nat.lt_one_iff.mp hi
    subst this
    exact Nat.one_pos
  · intro i hi c hc
    have : i = 0 := by simpa using Nat.lt_one_iff.mp hi
    subst this
    exact absurd hc (List.not_mem_nil c)
  · intro i hi c hc hcp
    have hc0 : c = 0 := by simpa using Nat.lt_one_iff.mp hc
    subst hc0
    exact absurd hcp (by simp [construct, nd])
  · intro i hi p hp hpp
    have : i = 0 := by simpa using Nat.lt_one_iff.mp hi
    subst this
    exact absurd hpp (by simp [construct, nd])
  · intro i hi p hp hpp
    have : i = 0 := by simpa using Nat.lt_one_iff.mp hi
    subst this
    exact absurd hpp (by simp [construct, nd])

theorem advanceList_nil (G : Geo) (t : RRTTree) : advanceList G t [] = t := rfl

theorem advanceList_cons (G : Geo) (t : RRTTree) (cu : Bool × Point)
    (l : List (Bool × Point)) :
    advanceList G t (cu :: l) = advanceList G (stepMicro G cu.1 cu.2 t).1 l := rfl

/-- The invariant holds after any sequence of micro-steps. -/
theorem advanceList_WF (G : Geo) (hd : ∀ a b, 0 ≤ G.dist a b) {t : RRTTree}
    (h : WF G t) (l : List (Bool × Point)) : WF G (advanceList G t l) := by
  induction l generalizing t with
  | nil => exact h
  | cons cu rest ih =>
    rw [advanceList_cons]
    exact ih (stepMicro_WF G hd cu.1 cu.2 h)

/-! ## The claims -/

/-- C1: Cost-invariant preservation.  In every state reached from a freshly
constructed planner by any sequence of `stepMicro` calls (any length, any
random draws) — hence after construction and after every `advanceMicro`,
including after every ADD_NODE and after every REWIRE cost cascade
(`updateCost`) — every node with a non-null `parentId` has cost equal to the
cost of its parent plus the distance between the node and its parent, and
the root node (id 0) has cost 0.  The distance function is abstract and
assumed nonnegative, as the source's Euclidean distance is; it is applied
in the code's `dist(parent, node)` order, which for the symmetric Euclidean
distance is the distance between the node and its parent. -/
theorem c1_cost_invariant (G : Geo) (hd : ∀ a b, 0 ≤ G.dist a b)
    (width height : ℚ) (start goal : Point) (obstacles : List Obstacle)
    (params : SolverParams) (algorithm : AlgorithmType) (l : List (Bool × Point)) :
    CostInvariant G
      (advanceList G (construct width height start goal obstacles params algorithm)
        l).nodes := by
  have hwf := advanceList_WF G hd
    (construct_WF G width height start goal obstacles params algorithm) l
  exact ⟨hwf.store.idOk 0 hwf.store.len_pos, hwf.store.rootCost, hwf.store.costOk⟩

theorem c1_cost_invariant_witness :
    (∀ a b, 0 ≤ taxiGeo.dist a b) ∧
    CostInvariant taxiGeo
      (advanceList taxiGeo
        (construct 800 600 ⟨0, 0⟩ ⟨50, 0⟩ []
          { stepSize := 100, maxIterations := 100, goalBias := 0, searchRadius := 60 }
          .RRTStar)
        [(true, ⟨0, 0⟩), (true, ⟨0, 0⟩), (true, ⟨0, 0⟩), (true, ⟨0, 0⟩), (true, ⟨0, 0⟩),
          (true, ⟨0, 0⟩), (true, ⟨0, 0⟩), (true, ⟨0, 0⟩)]).nodes :=
  ⟨fun a b => add_nonneg (abs_nonneg _) (abs_nonneg _),
    c1_cost_invariant taxiGeo (fun a b => add_nonneg (abs_nonneg _) (abs_nonneg _))
      800 600 ⟨0, 0⟩ ⟨50, 0⟩ []
      { stepSize := 100, maxIterations := 100, goalBias := 0, searchRadius := 60 }
      .RRTStar
      [(true, ⟨0, 0⟩), (true, ⟨0, 0⟩), (true, ⟨0, 0⟩), (true, ⟨0, 0⟩), (true, ⟨0, 0⟩),
        (true, ⟨0, 0⟩), (true, ⟨0, 0⟩), (true, ⟨0, 0⟩)]⟩

/-- C2: Structural tree invariant.  In every state reached from a freshly
constructed planner by any sequence of `stepMicro` calls — hence after
construction and after every `advanceMicro`, including every ADD_NODE and
REWIRE — the store forms a rooted tree: every id in a node's `children`
refers to a node whose `parentId` equals that node's id; conversely every
node whose `parentId` equals the node's id appears exactly once in its
`children`; and from every node, repeatedly following `parentId` reaches
the root (id 0, parentId null) in at most the current node count of steps,
so the parent graph is acyclic. -/
theorem c2_structural_invariant (G : Geo) (hd : ∀ a b, 0 ≤ G.dist a b)
    (width height : ℚ) (start goal : Point) (obstacles : List Obstacle)
    (params : SolverParams) (algorithm : AlgorithmType) (l : List (Bool × Point)) :
    ChildrenInverse
      (advanceList G (construct width height start goal obstacles params algorithm)
        l).nodes ∧
    RootReachable
      (advanceList G (construct width height start goal obstacles params algorithm)
        l).nodes := by
  have hwf := advanceList_WF G hd
    (construct_WF G width height start goal obstacles params algorithm) l
  refine ⟨⟨hwf.store.childPar, hwf.store.parChild⟩,
    hwf.store.idOk 0 hwf.store.len_pos, hwf.store.rootPar, ?_⟩
  intro i hi
  obtain ⟨k, hk, hiter⟩ := rootSteps_lt_len hwf.store.toStructWF i hi
  exact ⟨k, le_of_lt hk, hiter⟩

theorem c2_structural_invariant_witness :
    (∀ a b, 0 ≤ taxiGeo.dist a b) ∧
    (ChildrenInverse
      (advanceList taxiGeo
        (construct 800 600 ⟨0, 0⟩ ⟨50, 0⟩ []
          { stepSize := 100, maxIterations := 100, goalBias := 0, searchRadius := 60 }
          .RRTStar)
        [(true, ⟨0, 0⟩), (true, ⟨0, 0⟩), (true, ⟨0, 0⟩), (true, ⟨0, 0⟩), (true, ⟨0, 0⟩),
          (true, ⟨0, 0⟩), (true, ⟨0, 0⟩), (true, ⟨0, 0⟩)]).nodes ∧
    RootReachable
      (advanceList taxiGeo
        (construct 800 600 ⟨0, 0⟩ ⟨50, 0⟩ []
          { stepSize := 100, maxIterations := 100, goalBias := 0, searchRadius := 60 }
          .RRTStar)
        [(true, ⟨0, 0⟩), (true, ⟨0, 0⟩), (true, ⟨0, 0⟩), (true, ⟨0, 0⟩), (true, ⟨0, 0⟩),
          (true, ⟨0, 0⟩), (true, ⟨0, 0⟩), (true, ⟨0, 0⟩)]).nodes) :=
  ⟨fun a b => add_nonneg (abs_nonneg _) (abs_nonneg _),
    c2_structural_invariant taxiGeo (fun a b => add_nonneg (abs_nonneg _) (abs_nonneg _))
      800 600 ⟨0, 0⟩ ⟨50, 0⟩ []
      { stepSize := 100, maxIterations := 100, goalBias := 0, searchRadius := 60 }
      .RRTStar
      [(true, ⟨0, 0⟩), (true, ⟨0, 0⟩), (true, ⟨0, 0⟩), (true, ⟨0, 0⟩), (true, ⟨0, 0⟩),
        (true, ⟨0, 0⟩), (true, ⟨0, 0⟩), (true, ⟨0, 0⟩)]⟩

/-- C3 counterexample: the source sentence says the neighbor's cost strictly
decreases *exactly when* that neighbor was re-parented during the REWIRE
step, but the `updateCost` cascade also strictly lowers the costs of the
re-parented neighbor's descendants — which may themselves be collected
neighbors whose parent pointer is untouched.  On the well-formed store
`rewireNodes` (REWIRE with neighbors `[2, 3]`, new node 4): rewiring
re-parents node 2 to node 4 (cost 30 → 10), and the cascade then lowers
neighbor 3's cost from 32 to 12 while node 3's `parentId` remains `some 2`
— a strict decrease with no re-parenting, refuting the "only when" half. -/
theorem c3_counterexample :
    StoreWF taxiGeo rewireState.nodes ∧
    rewireState.microState = .REWIRE ∧
    3 ∈ rewireState.tempNeighbors ∧
    (nd (stepMicro taxiGeo false ⟨0, 0⟩ rewireState).1.nodes 3).cost <
      (nd rewireState.nodes 3).cost ∧
    (nd (stepMicro taxiGeo false ⟨0, 0⟩ rewireState).1.nodes 3).parentId =
      (nd rewireState.nodes 3).parentId := by
  refine ⟨storeWF_of_bounded (by decide) (by decide) (by decide) (by decide) (by decide)
    (by decide) (by decide) (by with_unfolding_all decide) (by with_unfolding_all decide)
    rewireDepth (by decide),
    rfl, by decide, by with_unfolding_all decide, by with_unfolding_all decide⟩

/-- C3 (amended): on any well-formed planner, a REWIRE micro-step never
increases the cost of any node (in particular of any collected neighbor),
and any node whose parent pointer the step changed had its cost strictly
decreased.  The converse direction of the original claim is false: the
cascade can strictly lower a cost without re-parenting (see the
counterexample), so strict decrease holds *whenever* — not *exactly when* —
re-parenting occurred. -/
theorem c3_rewire_cost_amended (G : Geo) (hd : ∀ a b, 0 ≤ G.dist a b)
    (coin : Bool) (u : Point) {t : RRTTree} (h : WF G t) (hms : t.microState = .REWIRE) :
    ∀ i < t.nodes.length,
      (nd (stepMicro G coin u t).1.nodes i).cost ≤ (nd t.nodes i).cost ∧
      ((nd (stepMicro G coin u t).1.nodes i).parentId ≠ (nd t.nodes i).parentId →
        (nd (stepMicro G coin u t).1.nodes i).cost < (nd t.nodes i).cost) := by
  intro i hi
  by_cases hsat : t.params.maxIterations ≤ t.nodes.length
  · rw [stepMicro_sat hsat]
    exact ⟨le_refl _, fun hne => absurd rfl hne⟩
  · have hsat2 : t.nodes.length < t.params.maxIterations := not_le.mp hsat
    by_cases halg : t.algorithm = .RRTStar
    · rcases hnp : t.tempNewPoint with _ | np
      · rw [stepMicro_REWIRE_skip hsat2 hms (Or.inr hnp)]
        exact ⟨le_refl _, fun hne => absurd rfl hne⟩
      · rw [stepMicro_REWIRE_star hsat2 hms halg hnp]
        have hfold := rewireFold_spec G hd t.obstacles (t.nodes.length - 1)
          t.tempNeighbors t.nodes h.store
          (by have := h.store.len_pos; omega) h.nbrLt
        simp only [resetTemp]
        exact ⟨hfold.2.2.1 i hi, hfold.2.2.2 i hi⟩
    · rw [stepMicro_REWIRE_skip hsat2 hms (Or.inl halg)]
      exact ⟨le_refl _, fun hne => absurd rfl hne⟩

theorem c3_rewire_cost_amended_witness :
    (∀ a b, 0 ≤ taxiGeo.dist a b) ∧ WF taxiGeo rewireState ∧
    rewireState.microState = .REWIRE ∧ 2 < rewireState.nodes.length ∧
    (nd (stepMicro taxiGeo false ⟨0, 0⟩ rewireState).1.nodes 2).cost ≤
      (nd rewireState.nodes 2).cost := by
  have hd : ∀ a b, 0 ≤ taxiGeo.dist a b :=
    fun a b => add_nonneg (abs_nonneg _) (abs_nonneg _)
  have hwf : WF taxiGeo rewireState :=
    ⟨storeWF_of_bounded (by decide) (by decide) (by decide) (by decide) (by decide)
      (by decide) (by decide) (by with_unfolding_all decide) (by with_unfolding_all decide)
      rewireDepth (by decide),
      fun n hn => Option.noConfusion hn, fun b hb => Option.noConfusion hb,
      fun m hm => by
        rcases List.mem_cons.mp hm with h1 | h1
        · rw [h1]; decide
        · rcases List.mem_cons.mp h1 with h2 | h2
          · rw [h2]; decide
          · exact absurd h2 (List.not_mem_nil m)⟩
  exact ⟨hd, hwf, rfl, by decide,
    (c3_rewire_cost_amended taxiGeo hd false ⟨0, 0⟩ hwf rfl 2 (by decide)).1⟩

/-- The CHOOSE_PARENT fold computes the minimum of the running cost over
the initial pair and every collision-free neighbor, and its result satisfies
the first-in-scan-order characterization. -/
theorem choosePair_spec (G : Geo) (np : Point) (obstacles : List Obstacle)
    (nodes : List Node) :
    ∀ (l : List ℕ) (init : ℕ × ℚ),
      (choosePair G np obstacles nodes l init).2 ≤ init.2 ∧
      (∀ i ∈ l, FreeTo G nodes np obstacles i →
        (choosePair G np obstacles nodes l init).2 ≤ potCost G nodes np i) ∧
      FirstAttainer G nodes np obstacles l init (choosePair G np obstacles nodes l init) := by
  intro l
  induction l with
  | nil =>
    intro init
    exact ⟨le_refl _, fun i hi => absurd hi (List.not_mem_nil i),
      Or.inl ⟨rfl, fun i hi => absurd hi (List.not_mem_nil i)⟩⟩
  | cons x rest ih =>
    intro init
    rw [choosePair_cons]
    by_cases h1 : (nd nodes x).cost + G.dist (pos (nd nodes x)) np < init.2
    · by_cases h2 : checkCollision G (pos (nd nodes x)) np obstacles = true
      · -- the neighbor beats the running best but is blocked: skip it
        rw [if_pos h1, if_pos h2]
        obtain ⟨i1, i2, i3⟩ := ih init
        have hxfree : ¬ FreeTo G nodes np obstacles x := by
          intro hf
          rw [FreeTo, h2] at hf
          exact Bool.noConfusion hf
        refine ⟨i1, ?_, ?_⟩
        · intro i hi hf
          rcases List.mem_cons.mp hi with hix | hir
          · exact absurd (hix ▸ hf) hxfree
          · exact i2 i hir hf
        · rcases i3 with ⟨e1, e2⟩ | ⟨l1, l2, e1, e2, e3, e4, e5⟩
          · refine Or.inl ⟨e1, fun i hi hf => ?_⟩
            rcases List.mem_cons.mp hi with hix | hir
            · exact absurd (hix ▸ hf) hxfree
            · exact e2 i hir hf
          · refine Or.inr ⟨x :: l1, l2, by rw [List.cons_append, ← e1], e2, e3, e4,
              fun i hi hf => ?_⟩
            rcases List.mem_cons.mp hi with hix | hir
            · exact absurd (hix ▸ hf) hxfree
            · exact e5 i hir hf
      · -- the neighbor strictly beats the running best and is free: take it
        rw [if_pos h1, if_neg h2]
        obtain ⟨i1, i2, i3⟩ := ih (x, (nd nodes x).cost + G.dist (pos (nd nodes x)) np)
        have hle : (choosePair G np obstacles nodes rest
            (x, (nd nodes x).cost + G.dist (pos (nd nodes x)) np)).2 < init.2 :=
          lt_of_le_of_lt i1 h1
        have hxfree : FreeTo G nodes np obstacles x := by
          rw [FreeTo]
          cases hcb : checkCollision G (pos (nd nodes x)) np obstacles
          · rfl
          · exact absurd hcb h2
        refine ⟨le_of_lt hle, ?_, ?_⟩
        · intro i hi hf
          rcases List.mem_cons.mp hi with hix | hir
          · rw [hix]
            exact i1
          · exact i2 i hir hf
        · rcases i3 with ⟨e1, e2⟩ | ⟨l1, l2, e1, e2, e3, e4, e5⟩
          · refine Or.inr ⟨[], rest, ?_, ?_, ?_, ?_,
              fun i hi => absurd hi (List.not_mem_nil i)⟩
            · rw [e1]
              rfl
            · rw [e1]
              exact hxfree
            · rw [e1]
              rfl
            · rw [e1]
              exact h1
          · refine Or.inr ⟨x :: l1, l2, by rw [List.cons_append, ← e1], e2, e3,
              lt_trans e4 h1, fun i hi hf => ?_⟩
            rcases List.mem_cons.mp hi with hix | hir
            · rw [hix]
              exact e4
            · exact e5 i hir hf
    · -- the neighbor does not strictly beat the running best: keep it
      rw [if_neg h1]
      obtain ⟨i1, i2, i3⟩ := ih init
      have hxge : init.2 ≤ (nd nodes x).cost + G.dist (pos (nd nodes x)) np := not_lt.mp h1
      refine ⟨i1, ?_, ?_⟩
      · intro i hi hf
        rcases List.mem_cons.mp hi with hix | hir
        · rw [hix]
          exact le_trans i1 hxge
        · exact i2 i hir hf
      · rcases i3 with ⟨e1, e2⟩ | ⟨l1, l2, e1, e2, e3, e4, e5⟩
        · refine Or.inl ⟨e1, fun i hi hf => ?_⟩
          rcases List.mem_cons.mp hi with hix | hir
          · rw [hix]
            exact hxge
          · exact e2 i hir hf
        · refine Or.inr ⟨x :: l1, l2, by rw [List.cons_append, ← e1], e2, e3, e4,
            fun i hi hf => ?_⟩
          rcases List.mem_cons.mp hi with hix | hir
          · rw [hix]
            exact lt_of_lt_of_le e4 hxge
          · exact e5 i hir hf

/-- C4: CHOOSE_PARENT minimality.  On an RRT* planner in the CHOOSE_PARENT
micro-state with a candidate point and a nearest node in scratch, the
micro-step stores as best parent the result of the scan fold started at
`(nearest.id, nearest.cost + dist(nearest, candidate))` — each neighbor in
scan order replaces the running best exactly when its `cost + dist` is
strictly smaller and its segment to the candidate is collision-free — and
moves to ADD_NODE returning `true`; the resulting best cost is the minimum
of the initial cost and the potential costs of all collision-free neighbors,
and the resulting parent is the initial nearest node when nothing strictly
beats it (first-in-scan-order retention under exact ties) or else the first
collision-free neighbor in scan order attaining the minimum, every earlier
collision-free neighbor being strictly worse. -/
theorem c4_choose_parent_minimal (G : Geo) (coin : Bool) (u : Point) (t : RRTTree)
    {np : Point} {nr : Node}
    (hsat : t.nodes.length < t.params.maxIterations)
    (hms : t.microState = .CHOOSE_PARENT)
    (hnp : t.tempNewPoint = some np) (hnr : t.tempNearestNode = some nr) :
    stepMicro G coin u t =
      ({ t with
          tempBestParent := some (choosePair G np t.obstacles t.nodes t.tempNeighbors
            (nr.id, nr.cost + G.dist (pos nr) np)).1,
          microState := .ADD_NODE }, true) ∧
    (choosePair G np t.obstacles t.nodes t.tempNeighbors
        (nr.id, nr.cost + G.dist (pos nr) np)).2 ≤ nr.cost + G.dist (pos nr) np ∧
    (∀ i ∈ t.tempNeighbors, FreeTo G t.nodes np t.obstacles i →
      (choosePair G np t.obstacles t.nodes t.tempNeighbors
        (nr.id, nr.cost + G.dist (pos nr) np)).2 ≤ potCost G t.nodes np i) ∧
    FirstAttainer G t.nodes np t.obstacles t.tempNeighbors
      (nr.id, nr.cost + G.dist (pos nr) np)
      (choosePair G np t.obstacles t.nodes t.tempNeighbors
        (nr.id, nr.cost + G.dist (pos nr) np)) := by
  obtain ⟨s1, s2, s3⟩ := choosePair_spec G np t.obstacles t.nodes t.tempNeighbors
    (nr.id, nr.cost + G.dist (pos nr) np)
  exact ⟨stepMicro_CP hsat hms hnp hnr, s1, s2, s3⟩

theorem c4_choose_parent_minimal_witness :
    cpState.nodes.length < cpState.params.maxIterations ∧
    cpState.microState = .CHOOSE_PARENT ∧
    cpState.tempNewPoint = some ⟨4, 0⟩ ∧
    cpState.tempNearestNode = some (nd rewireNodes 1) ∧
    stepMicro taxiGeo false ⟨0, 0⟩ cpState =
      ({ cpState with
          tempBestParent := some (choosePair taxiGeo ⟨4, 0⟩ cpState.obstacles cpState.nodes
            cpState.tempNeighbors
            ((nd rewireNodes 1).id,
              (nd rewireNodes 1).cost + taxiGeo.dist (pos (nd rewireNodes 1)) ⟨4, 0⟩)).1,
          microState := .ADD_NODE }, true) :=
  ⟨by decide, rfl, rfl, rfl,
    (c4_choose_parent_minimal taxiGeo false ⟨0, 0⟩ cpState (by decide) rfl rfl rfl).1⟩

/-- C5: Scenario C micro-step trace.  For an RRT* planner with an empty
obstacle set, node count below `maxIterations`, micro-state SAMPLE and a
well-formed store, eight consecutive `stepMicro` calls — whatever the eight
random draws — return `false` exactly once, on the eighth call (the
conclusion of REWIRE, or the saturation guard if the added node just filled
the cap), and the node count increases by exactly 1 over the eight calls.
The initial scratch contents are irrelevant: every field consumed along the
SAMPLE → NEAREST → STEER → COLLISION_CHECK → NEIGHBORS → CHOOSE_PARENT →
ADD_NODE → REWIRE trace is written by an earlier state of the same trace. -/
theorem c5_scenario_c (G : Geo) (hd : ∀ a b, 0 ≤ G.dist a b) {t : RRTTree} (hwf : WF G t)
    (halg : t.algorithm = .RRTStar) (hobs : t.obstacles = [])
    (hms : t.microState = .SAMPLE) (hsat : t.nodes.length < t.params.maxIterations)
    (b1 b2 b3 b4 b5 b6 b7 b8 : Bool) (v1 v2 v3 v4 v5 v6 v7 v8 : Point) :
    (runResults G t [(b1, v1), (b2, v2), (b3, v3), (b4, v4), (b5, v5), (b6, v6),
        (b7, v7), (b8, v8)]).2 =
      [true, true, true, true, true, true, true, false] ∧
    (runResults G t [(b1, v1), (b2, v2), (b3, v3), (b4, v4), (b5, v5), (b6, v6),
        (b7, v7), (b8, v8)]).1.nodes.length = t.nodes.length + 1 := by
  obtain ⟨t1, h1, m1, ts1, n1, p1, o1, a1⟩ :
      ∃ t1, stepMicro G b1 v1 t = (t1, true) ∧ t1.microState = .NEAREST ∧
        t1.tempSample = some (if b1 then t.goal else v1) ∧ t1.nodes = t.nodes ∧
        t1.params = t.params ∧ t1.obstacles = t.obstacles ∧ t1.algorithm = t.algorithm :=
    ⟨_, stepMicro_SAMPLE hsat hms, rfl, rfl, rfl, rfl, rfl, rfl⟩
  have w1 : WF G t1 := by
    have hw := stepMicro_WF G hd b1 v1 hwf
    rw [h1] at hw
    exact hw
  have hsat1 : t1.nodes.length < t1.params.maxIterations := by
    rw [n1, p1]
    exact hsat
  obtain ⟨t2, nr, h2, m2, ts2, nn2, n2, p2, o2, a2⟩ :
      ∃ t2 nr, stepMicro G b2 v2 t1 = (t2, true) ∧ t2.microState = .STEER ∧
        t2.tempSample = some (if b1 then t.goal else v1) ∧
        t2.tempNearestNode = some nr ∧ t2.nodes = t.nodes ∧
        t2.params = t.params ∧ t2.obstacles = t.obstacles ∧ t2.algorithm = t.algorithm :=
    ⟨_, _, stepMicro_NEAREST hsat1 m1 ts1, rfl, ts1, rfl, n1, p1, o1, a1⟩
  have w2 : WF G t2 := by
    have hw := stepMicro_WF G hd b2 v2 w1
    rw [h2] at hw
    exact hw
  have hsat2 : t2.nodes.length < t2.params.maxIterations := by
    rw [n2, p2]
    exact hsat
  obtain ⟨t3, np, h3, m3, nn3, np3, n3, p3, o3, a3⟩ :
      ∃ t3 np, stepMicro G b3 v3 t2 = (t3, true) ∧ t3.microState = .COLLISION_CHECK ∧
        t3.tempNearestNode = some nr ∧ t3.tempNewPoint = some np ∧ t3.nodes = t.nodes ∧
        t3.params = t.params ∧ t3.obstacles = t.obstacles ∧ t3.algorithm = t.algorithm :=
    ⟨_, _, stepMicro_STEER hsat2 m2 nn2 ts2, rfl, nn2, rfl, n2, p2, o2, a2⟩
  have w3 : WF G t3 := by
    have hw := stepMicro_WF G hd b3 v3 w2
    rw [h3] at hw
    exact hw
  have hsat3 : t3.nodes.length < t3.params.maxIterations := by
    rw [n3, p3]
    exact hsat
  have hcol : checkCollision G (pos nr) np t3.obstacles = false := by
    rw [o3, hobs]
    rfl
  have halg3 : t3.algorithm = .RRTStar := by
    rw [a3]
    exact halg
  obtain ⟨t4, h4, m4, nn4, np4, n4, p4, o4, a4⟩ :
      ∃ t4, stepMicro G b4 v4 t3 = (t4, true) ∧ t4.microState = .NEIGHBORS ∧
        t4.tempNearestNode = some nr ∧ t4.tempNewPoint = some np ∧ t4.nodes = t.nodes ∧
        t4.params = t.params ∧ t4.obstacles = t.obstacles ∧ t4.algorithm = t.algorithm :=
    ⟨_, stepMicro_CC_free_star hsat3 m3 nn3 np3 hcol halg3, rfl, nn3, np3, n3, p3, o3, a3⟩
  have w4 : WF G t4 := by
    have hw := stepMicro_WF G hd b4 v4 w3
    rw [h4] at hw
    exact hw
  have hsat4 : t4.nodes.length < t4.params.maxIterations := by
    rw [n4, p4]
    exact hsat
  obtain ⟨t5, h5, m5, nn5, np5, n5, p5, o5, a5⟩ :
      ∃ t5, stepMicro G b5 v5 t4 = (t5, true) ∧ t5.microState = .CHOOSE_PARENT ∧
        t5.tempNearestNode = some nr ∧ t5.tempNewPoint = some np ∧ t5.nodes = t.nodes ∧
        t5.params = t.params ∧ t5.obstacles = t.obstacles ∧ t5.algorithm = t.algorithm :=
    ⟨_, stepMicro_NEIGHBORS hsat4 m4 np4, rfl, nn4, np4, n4, p4, o4, a4⟩
  have w5 : WF G t5 := by
    have hw := stepMicro_WF G hd b5 v5 w4
    rw [h5] at hw
    exact hw
  have hsat5 : t5.nodes.length < t5.params.maxIterations := by
    rw [n5, p5]
    exact hsat
  obtain ⟨t6, h6, m6, np6, n6, p6, o6, a6⟩ :
      ∃ t6, stepMicro G b6 v6 t5 = (t6, true) ∧ t6.microState = .ADD_NODE ∧
        t6.tempNewPoint = some np ∧ t6.nodes = t.nodes ∧
        t6.params = t.params ∧ t6.obstacles = t.obstacles ∧ t6.algorithm = t.algorithm :=
    ⟨_, stepMicro_CP hsat5 m5 np5 nn5, rfl, np5, n5, p5, o5, a5⟩
  have w6 : WF G t6 := by
    have hw := stepMicro_WF G hd b6 v6 w5
    rw [h6] at hw
    exact hw
  have hsat6 : t6.nodes.length < t6.params.maxIterations := by
    rw [n6, p6]
    exact hsat
  have halg6 : t6.algorithm = .RRTStar := by
    rw [a6]
    exact halg
  obtain ⟨t7, h7, m7, np7, ln7, p7, o7, a7⟩ :
      ∃ t7, stepMicro G b7 v7 t6 = (t7, true) ∧ t7.microState = .REWIRE ∧
        t7.tempNewPoint = some np ∧ t7.nodes.length = t.nodes.length + 1 ∧
        t7.params = t.params ∧ t7.obstacles = t.obstacles ∧ t7.algorithm = t.algorithm :=
    ⟨_, stepMicro_ADD_star hsat6 m6 np6 halg6, rfl, np6,
      by
        show (addNodeStore G t6.nodes np (finalParent t6)).length = t.nodes.length + 1
        rw [addNodeStore_length, n6],
      p6, o6, a6⟩
  have w7 : WF G t7 := by
    have hw := stepMicro_WF G hd b7 v7 w6
    rw [h7] at hw
    exact hw
  obtain ⟨t8, h8, ln8⟩ : ∃ t8, stepMicro G b8 v8 t7 = (t8, false) ∧
      t8.nodes.length = t.nodes.length + 1 := by
    by_cases hs : t7.params.maxIterations ≤ t7.nodes.length
    · exact ⟨t7, stepMicro_sat hs, ln7⟩
    · refine ⟨_, stepMicro_REWIRE_star (not_le.mp hs) m7 (a7.trans halg) np7, ?_⟩
      show (rewireStore G t7.obstacles t7.nodes t7.tempNeighbors).length = t.nodes.length + 1
      rw [rewireStore_length G hd t7.obstacles w7.store w7.nbrLt, ln7]
  refine ⟨?_, ?_⟩
  · simp only [runResults, h1, h2, h3, h4, h5, h6, h7, h8]
  · simp only [runResults, h1, h2, h3, h4, h5, h6, h7, h8]
    exact ln8

theorem c5_scenario_c_witness :
    (∀ a b, 0 ≤ taxiGeo.dist a b) ∧ WF taxiGeo freshStarTree ∧
    freshStarTree.algorithm = .RRTStar ∧ freshStarTree.obstacles = [] ∧
    freshStarTree.microState = .SAMPLE ∧
    freshStarTree.nodes.length < freshStarTree.params.maxIterations ∧
    ((runResults taxiGeo freshStarTree [(true, ⟨0, 0⟩), (true, ⟨0, 0⟩), (true, ⟨0, 0⟩),
        (true, ⟨0, 0⟩), (true, ⟨0, 0⟩), (true, ⟨0, 0⟩), (true, ⟨0, 0⟩),
        (true, ⟨0, 0⟩)]).2 =
      [true, true, true, true, true, true, true, false] ∧
    (runResults taxiGeo freshStarTree [(true, ⟨0, 0⟩), (true, ⟨0, 0⟩), (true, ⟨0, 0⟩),
        (true, ⟨0, 0⟩), (true, ⟨0, 0⟩), (true, ⟨0, 0⟩), (true, ⟨0, 0⟩),
        (true, ⟨0, 0⟩)]).1.nodes.length = freshStarTree.nodes.length + 1) := by
  have hd : ∀ a b, 0 ≤ taxiGeo.dist a b :=
    fun a b => add_nonneg (abs_nonneg _) (abs_nonneg _)
  have hwf : WF taxiGeo freshStarTree :=
    construct_WF taxiGeo 800 600 ⟨0, 0⟩ ⟨50, 0⟩ []
      { stepSize := 100, maxIterations := 100, goalBias := 0, searchRadius := 60 } .RRTStar
  exact ⟨hd, hwf, rfl, rfl, rfl, by decide,
    c5_scenario_c taxiGeo hd hwf rfl rfl rfl (by decide)
      true true true true true true true true
      ⟨0, 0⟩ ⟨0, 0⟩ ⟨0, 0⟩ ⟨0, 0⟩ ⟨0, 0⟩ ⟨0, 0⟩ ⟨0, 0⟩ ⟨0, 0⟩⟩

/-- The drain loop with cap constant `c` performs at most `c + 1` micro-calls. -/
theorem stepFrom_calls_le (G : Geo) (o : ℕ → Bool × Point) :
    ∀ (rem idx : ℕ) (t : RRTTree), (stepFrom G o rem idx t).2 ≤ rem + 1 := by
  intro rem
  induction rem with
  | zero =>
    intro idx t
    exact le_refl _
  | succ n ih =>
    intro idx t
    simp only [stepFrom]
    by_cases hr : (stepMicro G (o idx).1 (o idx).2 t).2 = true
    · rw [if_pos hr]
      exact Nat.succ_le_succ (ih (idx + 1) (stepMicro G (o idx).1 (o idx).2 t).1)
    · rw [if_neg hr]
      show (1 : ℕ) ≤ n + 1 + 1
      omega

/-- C6 counterexample: the source's safety cap is the constant `20`, not 8
(`while (this.stepMicro() && ops < 20)`), and a single `step()` call can
perform more than 8 micro-invocations: from a one-node RRT* planner whose
micro-state tag is NEAREST with an empty scratch (exactly the corruption the
cap is described as defending against), the defensive guard first bounces
the machine back to SAMPLE, so draining the iteration takes 9 calls. -/
theorem c6_counterexample :
    stepCalls taxiGeo goalOracle corruptState = 9 ∧
    ¬ stepCalls taxiGeo goalOracle corruptState ≤ 8 := by
  constructor
  · with_unfolding_all decide
  · with_unfolding_all decide

/-- C6 (amended): a `step()` call repeatedly invokes `stepMicro` until it
signals conclusion, always returns `true`, and — the code's cap constant
being `20`, checked after each returning-`true` call — performs at most 21
micro-invocations (not 8: see the counterexample). -/
theorem c6_drain_amended (G : Geo) (o : ℕ → Bool × Point) (t : RRTTree) :
    (step G o t).2 = true ∧ stepCalls G o t ≤ 21 :=
  ⟨rfl, stepFrom_calls_le G o 20 0 t⟩

/-- C7 counterexample: the saturation check `if (nodes.length >=
maxIterations) return false` at the top of `stepMicro` returns `false`
without calling `resetTemp` and without touching the micro-state tag.  On a
fresh RRT* planner with `maxIterations = 2`, the first seven micro-calls add
a second node and leave the machine at REWIRE with a populated scratch; the
eighth call then concludes (returns `false`) via the saturation guard while
`tempSample` is still `some (50, 0)` and the micro-state tag is still
REWIRE — scratch state does persist across this iteration boundary. -/
theorem c7_counterexample :
    (stepMicro taxiGeo true ⟨0, 0⟩ (advanceList taxiGeo smallCapTree
      [(true, ⟨0, 0⟩), (true, ⟨0, 0⟩), (true, ⟨0, 0⟩), (true, ⟨0, 0⟩), (true, ⟨0, 0⟩),
        (true, ⟨0, 0⟩), (true, ⟨0, 0⟩)])).2 = false ∧
    (stepMicro taxiGeo true ⟨0, 0⟩ (advanceList taxiGeo smallCapTree
      [(true, ⟨0, 0⟩), (true, ⟨0, 0⟩), (true, ⟨0, 0⟩), (true, ⟨0, 0⟩), (true, ⟨0, 0⟩),
        (true, ⟨0, 0⟩), (true, ⟨0, 0⟩)])).1.tempSample = some ⟨50, 0⟩ ∧
    (stepMicro taxiGeo true ⟨0, 0⟩ (advanceList taxiGeo smallCapTree
      [(true, ⟨0, 0⟩), (true, ⟨0, 0⟩), (true, ⟨0, 0⟩), (true, ⟨0, 0⟩), (true, ⟨0, 0⟩),
        (true, ⟨0, 0⟩), (true, ⟨0, 0⟩)])).1.microState = .REWIRE := by
  refine ⟨?_, ?_, ?_⟩
  · with_unfolding_all decide
  · with_unfolding_all decide
  · with_unfolding_all decide

/-- C7 (amended): whenever a `stepMicro` call whose entry state is below the
saturation cap concludes an iteration (returns `false`), all five scratch
fields are cleared and the micro-state tag is back at SAMPLE.  The
restriction to non-saturated entry states is necessary: the saturation guard
returns `false` leaving scratch and tag untouched (see the counterexample). -/
theorem c7_scratch_cleared_amended (G : Geo) (coin : Bool) (u : Point) (t : RRTTree)
    (hsat : t.nodes.length < t.params.maxIterations)
    (hfalse : (stepMicro G coin u t).2 = false) :
    (stepMicro G coin u t).1.tempSample = none ∧
    (stepMicro G coin u t).1.tempNearestNode = none ∧
    (stepMicro G coin u t).1.tempNewPoint = none ∧
    (stepMicro G coin u t).1.tempNeighbors = [] ∧
    (stepMicro G coin u t).1.tempBestParent = none ∧
    (stepMicro G coin u t).1.microState = .SAMPLE := by
  cases hms : t.microState with
  | SAMPLE =>
    rw [stepMicro_SAMPLE hsat hms] at hfalse
    exact absurd hfalse (by simp)
  | NEAREST =>
    rcases hts : t.tempSample with - | sp
    · rw [stepMicro_NEAREST_none hsat hms hts] at hfalse
      exact absurd hfalse (by simp)
    · rw [stepMicro_NEAREST hsat hms hts] at hfalse
      exact absurd hfalse (by simp)
  | STEER =>
    rcases hnn : t.tempNearestNode with - | nr
    · rw [stepMicro_STEER_guard hsat hms (Or.inl hnn)] at hfalse
      exact absurd hfalse (by simp)
    · rcases hts : t.tempSample with - | sp
      · rw [stepMicro_STEER_guard hsat hms (Or.inr hts)] at hfalse
        exact absurd hfalse (by simp)
      · rw [stepMicro_STEER hsat hms hnn hts] at hfalse
        exact absurd hfalse (by simp)
  | COLLISION_CHECK =>
    rcases hnn : t.tempNearestNode with - | nr
    · rw [stepMicro_CC_guard hsat hms (Or.inl hnn)] at hfalse
      exact absurd hfalse (by simp)
    · rcases hnp : t.tempNewPoint with - | np
      · rw [stepMicro_CC_guard hsat hms (Or.inr hnp)] at hfalse
        exact absurd hfalse (by simp)
      · by_cases hcol : checkCollision G (pos nr) np t.obstacles = true
        · rw [stepMicro_CC_hit hsat hms hnn hnp hcol]
          exact ⟨rfl, rfl, rfl, rfl, rfl, rfl⟩
        · have hcol2 : checkCollision G (pos nr) np t.obstacles = false := by
            cases hcb : checkCollision G (pos nr) np t.obstacles
            · rfl
            · exact absurd hcb hcol
          by_cases halg : t.algorithm = .RRTStar
          · rw [stepMicro_CC_free_star hsat hms hnn hnp hcol2 halg] at hfalse
            exact absurd hfalse (by simp)
          · rw [stepMicro_CC_free_rrt hsat hms hnn hnp hcol2 halg] at hfalse
            exact absurd hfalse (by simp)
  | NEIGHBORS =>
    rcases hnp : t.tempNewPoint with - | np
    · rw [stepMicro_NEIGHBORS_guard hsat hms hnp] at hfalse
      exact absurd hfalse (by simp)
    · rw [stepMicro_NEIGHBORS hsat hms hnp] at hfalse
      exact absurd hfalse (by simp)
  | CHOOSE_PARENT =>
    rcases hnp : t.tempNewPoint with - | np
    · rw [stepMicro_CP_guard hsat hms (Or.inl hnp)] at hfalse
      exact absurd hfalse (by simp)
    · rcases hnn : t.tempNearestNode with - | nr
      · rw [stepMicro_CP_guard hsat hms (Or.inr hnn)] at hfalse
        exact absurd hfalse (by simp)
      · rw [stepMicro_CP hsat hms hnp hnn] at hfalse
        exact absurd hfalse (by simp)
  | ADD_NODE =>
    rcases hnp : t.tempNewPoint with - | np
    · rw [stepMicro_ADD_guard hsat hms hnp] at hfalse
      exact absurd hfalse (by simp)
    · by_cases halg : t.algorithm = .RRTStar
      · rw [stepMicro_ADD_star hsat hms hnp halg] at hfalse
        exact absurd hfalse (by simp)
      · rw [stepMicro_ADD_rrt hsat hms hnp halg]
        exact ⟨rfl, rfl, rfl, rfl, rfl, rfl⟩
  | REWIRE =>
    by_cases halg : t.algorithm = .RRTStar
    · rcases hnp : t.tempNewPoint with - | np
      · rw [stepMicro_REWIRE_skip hsat hms (Or.inr hnp)]
        exact ⟨rfl, rfl, rfl, rfl, rfl, rfl⟩
      · rw [stepMicro_REWIRE_star hsat hms halg hnp]
        exact ⟨rfl, rfl, rfl, rfl, rfl, rfl⟩
    · rw [stepMicro_REWIRE_skip hsat hms (Or.inl halg)]
      exact ⟨rfl, rfl, rfl, rfl, rfl, rfl⟩

theorem c7_scratch_cleared_amended_witness :
    rewireState.nodes.length < rewireState.params.maxIterations ∧
    (stepMicro taxiGeo false ⟨0, 0⟩ rewireState).2 = false ∧
    ((stepMicro taxiGeo false ⟨0, 0⟩ rewireState).1.tempSample = none ∧
     (stepMicro taxiGeo false ⟨0, 0⟩ rewireState).1.tempNearestNode = none ∧
     (stepMicro taxiGeo false ⟨0, 0⟩ rewireState).1.tempNewPoint = none ∧
     (stepMicro taxiGeo false ⟨0, 0⟩ rewireState).1.tempNeighbors = [] ∧
     (stepMicro taxiGeo false ⟨0, 0⟩ rewireState).1.tempBestParent = none ∧
     (stepMicro taxiGeo false ⟨0, 0⟩ rewireState).1.microState = .SAMPLE) := by
  have hf : (stepMicro taxiGeo false ⟨0, 0⟩ rewireState).2 = false := by
    with_unfolding_all decide
  exact ⟨by decide, hf,
    c7_scratch_cleared_amended taxiGeo false ⟨0, 0⟩ rewireState (by decide) hf⟩

/-- C9 counterexample: the ADD_NODE state checks only `tempNewPoint`; a
missing `tempNearestNode` is not guarded.  On a one-node RRT planner at
ADD_NODE with a candidate point but `tempNearestNode = null`, the source
does not reset to SAMPLE: the parent index falls back to 0
(`this.tempNearestNode?.id || 0`) and a node IS added — the store is
modified (length 1 → 2, new node parented to 0), refuting "resets to SAMPLE
without modifying the tree store" for this micro-state. -/
theorem c9_counterexample :
    missingNearestState.microState = .ADD_NODE ∧
    missingNearestState.tempNearestNode = none ∧
    missingNearestState.nodes.length < missingNearestState.params.maxIterations ∧
    (stepMicro taxiGeo false ⟨0, 0⟩ missingNearestState).1.nodes.length = 2 ∧
    (nd (stepMicro taxiGeo false ⟨0, 0⟩ missingNearestState).1.nodes 1).parentId =
      some 0 := by
  refine ⟨rfl, rfl, by decide, ?_, ?_⟩
  · with_unfolding_all decide
  · with_unfolding_all decide

/-- C9 (amended): the null-scratch guards that do exist — NEAREST with no
sample, STEER with either input missing, COLLISION_CHECK with either input
missing, NEIGHBORS or ADD_NODE with no candidate point, CHOOSE_PARENT with
either input missing — silently reset the micro-state to SAMPLE, return
`true`, and leave every other field of the planner (in particular the whole
tree store) untouched.  ADD_NODE with a candidate point but a missing
`tempNearestNode` is *not* guarded: it adds a node with parent falling back
to the root (see the counterexample). -/
theorem c9_defensive_guards_amended (G : Geo) (coin : Bool) (u : Point) (t : RRTTree)
    (hsat : t.nodes.length < t.params.maxIterations)
    (hcase :
      (t.microState = .NEAREST ∧ t.tempSample = none) ∨
      (t.microState = .STEER ∧ (t.tempNearestNode = none ∨ t.tempSample = none)) ∨
      (t.microState = .COLLISION_CHECK ∧
        (t.tempNearestNode = none ∨ t.tempNewPoint = none)) ∨
      (t.microState = .NEIGHBORS ∧ t.tempNewPoint = none) ∨
      (t.microState = .CHOOSE_PARENT ∧
        (t.tempNewPoint = none ∨ t.tempNearestNode = none)) ∨
      (t.microState = .ADD_NODE ∧ t.tempNewPoint = none)) :
    stepMicro G coin u t = ({ t with microState := .SAMPLE }, true) := by
  rcases hcase with ⟨hms, hg⟩ | ⟨hms, hg⟩ | ⟨hms, hg⟩ | ⟨hms, hg⟩ | ⟨hms, hg⟩ | ⟨hms, hg⟩
  · exact stepMicro_NEAREST_none hsat hms hg
  · exact stepMicro_STEER_guard hsat hms hg
  · exact stepMicro_CC_guard hsat hms hg
  · exact stepMicro_NEIGHBORS_guard hsat hms hg
  · exact stepMicro_CP_guard hsat hms hg
  · exact stepMicro_ADD_guard hsat hms hg

theorem c9_defensive_guards_amended_witness :
    corruptState.nodes.length < corruptState.params.maxIterations ∧
    (corruptState.microState = .NEAREST ∧ corruptState.tempSample = none) ∧
    stepMicro taxiGeo false ⟨0, 0⟩ corruptState =
      ({ corruptState with microState := .SAMPLE }, true) :=
  ⟨by decide, ⟨rfl, rfl⟩,
    c9_defensive_guards_amended taxiGeo false ⟨0, 0⟩ corruptState (by decide)
      (Or.inl ⟨rfl, rfl⟩)⟩

/-- C10: Degenerate-segment collision check.  For any point `p` and any
obstacle set, the collision test on the zero-length segment from `p` to `p`
reports collision-free, even when `p` lies strictly inside an obstacle: the
distance of the degenerate segment is 0, so the sampling step count
`Math.ceil(d / 5)` is 0 and every interpolation parameter `t = i / 0` is
NaN, making every inside-rectangle comparison false (modelled by the
`steps ≤ 0` branch of `lineIntersectsObstacle`).  Stated for any distance
function with `dist p p = 0`, as the Euclidean one has. -/
theorem c10_degenerate_collision (G : Geo) (p : Point) (obstacles : List Obstacle)
    (h0 : G.dist p p = 0) :
    checkCollision G p p obstacles = false := by
  have hline : ∀ obs : Obstacle, lineIntersectsObstacle G p p obs = false := by
    intro obs
    simp only [lineIntersectsObstacle]
    split
    · rfl
    · rw [h0]
      have hsteps : ((⌈(0 : ℚ) / 5⌉ : ℤ) ≤ 0) := by norm_num
      rw [if_pos hsteps]
  unfold checkCollision
  induction obstacles with
  | nil => rfl
  | cons o rest ih => rw [List.any_cons, hline o, Bool.false_or, ih]

theorem c10_degenerate_collision_witness :
    taxiGeo.dist ⟨5, 5⟩ ⟨5, 5⟩ = 0 ∧
    pointInObstacles ⟨5, 5⟩ [⟨0, 0, 10, 10⟩] = true ∧
    checkCollision taxiGeo ⟨5, 5⟩ ⟨5, 5⟩ [⟨0, 0, 10, 10⟩] = false := by
  have h0 : taxiGeo.dist ⟨5, 5⟩ ⟨5, 5⟩ = 0 := by
    with_unfolding_all decide
  exact ⟨h0, by with_unfolding_all decide,
    c10_degenerate_collision taxiGeo ⟨5, 5⟩ [⟨0, 0, 10, 10⟩] h0⟩

/-- The backtrace loop never returns the empty list. -/
theorem backtrace_ne_nil (nodes : List Node) (fuel curr : ℕ) :
    backtrace nodes fuel curr ≠ [] := by
  cases fuel with
  | zero => exact List.cons_ne_nil _ _
  | succ n =>
    simp only [backtrace]
    exact List.cons_ne_nil _ _

/-- Backtrace correctness on a store whose root is parentless: starting from
a node whose parent chain reaches the root in at most `fuel` steps, the
backtrace starts at the node, ends at the root, and every consecutive pair
is a child-to-parent edge. -/
theorem backtrace_spec (nodes : List Node) (hroot : (nd nodes 0).parentId = none) :
    ∀ (k i fuel : ℕ), parentIter nodes k i = some 0 → k ≤ fuel →
      (backtrace nodes fuel i).head? = some i ∧
      (backtrace nodes fuel i).getLast? = some 0 ∧
      List.Chain' (fun x y => (nd nodes x).parentId = some y) (backtrace nodes fuel i) := by
  intro k
  induction k with
  | zero =>
    intro i fuel hit hle
    simp only [parentIter, Option.some.injEq] at hit
    subst hit
    have hb : backtrace nodes fuel 0 = [0] := by
      cases fuel with
      | zero => rfl
      | succ n => simp [backtrace, hroot]
    rw [hb]
    exact ⟨rfl, rfl, List.chain'_singleton 0⟩
  | succ n ih =>
    intro i fuel hit hle
    rcases hp : (nd nodes i).parentId with - | p
    · simp only [parentIter, hp] at hit
      exact Option.noConfusion hit
    · simp only [parentIter, hp] at hit
      cases fuel with
      | zero => exact absurd hle (by omega)
      | succ m =>
        obtain ⟨ih1, ih2, ih3⟩ := ih p m hit (by omega)
        have hb : backtrace nodes (m + 1) i = i :: backtrace nodes m p := by
          simp only [backtrace, hp]
        rw [hb]
        refine ⟨rfl, ?_, ?_⟩
        · rcases hL : backtrace nodes m p with - | ⟨q, L⟩
          · rw [hL] at ih1
            exact Option.noConfusion ih1
          · rw [hL] at ih2
            rw [List.getLast?_cons_cons]
            exact ih2
        · rw [List.chain'_cons']
          refine ⟨fun b hb2 => ?_, ih3⟩
          rw [ih1] at hb2
          have hbp : p = b := by simpa using hb2
          rw [← hbp]
          exact hp

/-- The strict-`<` argmin fold of `getPath`: the result is the initial value
or a scanned index, and its cost is minimal among both. -/
theorem selectMinFold_spec (nodes : List Node) :
    ∀ (l : List ℕ) (b0 : ℕ),
      (l.foldl (fun best i =>
          if (nd nodes i).cost < (nd nodes best).cost then i else best) b0 = b0 ∨
        l.foldl (fun best i =>
          if (nd nodes i).cost < (nd nodes best).cost then i else best) b0 ∈ l) ∧
      (nd nodes (l.foldl (fun best i =>
          if (nd nodes i).cost < (nd nodes best).cost then i else best) b0)).cost ≤
        (nd nodes b0).cost ∧
      ∀ i ∈ l, (nd nodes (l.foldl (fun best i =>
          if (nd nodes i).cost < (nd nodes best).cost then i else best) b0)).cost ≤
        (nd nodes i).cost := by
  intro l
  induction l with
  | nil =>
    intro b0
    exact ⟨Or.inl rfl, le_refl _, fun i hi => absurd hi (List.not_mem_nil i)⟩
  | cons x rest ih =>
    intro b0
    simp only [List.foldl_cons]
    by_cases hc : (nd nodes x).cost < (nd nodes b0).cost
    · rw [if_pos hc]
      obtain ⟨m1, m2, m3⟩ := ih x
      refine ⟨?_, le_trans m2 (le_of_lt hc), ?_⟩
      · rcases m1 with h1 | h1
        · exact Or.inr (by rw [h1]; exact List.mem_cons_self x rest)
        · exact Or.inr (List.mem_cons_of_mem x h1)
      · intro i hi
        rcases List.mem_cons.mp hi with hix | hir
        · rw [hix]
          exact m2
        · exact m3 i hir
    · rw [if_neg hc]
      obtain ⟨m1, m2, m3⟩ := ih b0
      refine ⟨?_, m2, ?_⟩
      · rcases m1 with h1 | h1
        · exact Or.inl h1
        · exact Or.inr (List.mem_cons_of_mem x h1)
      · intro i hi
        rcases List.mem_cons.mp hi with hix | hir
        · rw [hix]
          exact le_trans m2 (not_lt.mp hc)
        · exact m3 i hir

/-- `selectMinCost` on a nonempty candidate list returns a candidate of
minimal cost. -/
theorem selectMinCost_spec (nodes : List Node) (l : List ℕ) (hl : l ≠ []) :
    selectMinCost nodes l ∈ l ∧
    ∀ i ∈ l, (nd nodes (selectMinCost nodes l)).cost ≤ (nd nodes i).cost := by
  rcases l with - | ⟨c, rest⟩
  · exact absurd rfl hl
  · have hsel : selectMinCost nodes (c :: rest) =
        rest.foldl (fun best i =>
          if (nd nodes i).cost < (nd nodes best).cost then i else best) c := by
      simp only [selectMinCost, List.headD, List.foldl_cons, lt_irrefl, if_neg,
        not_lt, le_refl, if_false]
    obtain ⟨m1, m2, m3⟩ := selectMinFold_spec nodes rest c
    rw [hsel]
    refine ⟨?_, ?_⟩
    · rcases m1 with h1 | h1
      · rw [h1]
        exact List.mem_cons_self c rest
      · exact List.mem_cons_of_mem c h1
    · intro i hi
      rcases List.mem_cons.mp hi with hix | hir
      · rw [hix]
        exact m2
      · exact m3 i hir

/-- C8: Path extractor behaviour.  On a well-formed store, `getPath` returns
the empty sequence if and only if no node lies within `1.5 × stepSize` of
the goal; otherwise there is a node `b` of minimal cost among all nodes
within that tolerance band such that the returned sequence is nonempty,
starts at the root (id 0), ends at `b`, and each element's successor is
linked to it by a `parentId` edge (the reversed `parentId` backtrace from
`b`).  The embedding of `getPath` is a pure function of the planner state,
so the call modifies no planner state by construction. -/
theorem c8_get_path (G : Geo) (t : RRTTree) (h : StoreWF G t.nodes) :
    (getPath G t = [] ↔
      ∀ i < t.nodes.length,
        ¬ G.dist (pos (nd t.nodes i)) t.goal ≤ t.params.stepSize * 1.5) ∧
    (getPath G t ≠ [] →
      ∃ b, b < t.nodes.length ∧
        G.dist (pos (nd t.nodes b)) t.goal ≤ t.params.stepSize * 1.5 ∧
        (∀ i < t.nodes.length,
          G.dist (pos (nd t.nodes i)) t.goal ≤ t.params.stepSize * 1.5 →
          (nd t.nodes b).cost ≤ (nd t.nodes i).cost) ∧
        (getPath G t).head? = some 0 ∧
        (getPath G t).getLast? = some b ∧
        List.Chain' (fun x y => (nd t.nodes y).parentId = some x) (getPath G t)) := by
  have hmem : ∀ i, (i ∈ (List.range t.nodes.length).filter fun j =>
      decide (G.dist (pos (nd t.nodes j)) t.goal ≤ t.params.stepSize * 1.5)) ↔
      (i < t.nodes.length ∧
        G.dist (pos (nd t.nodes i)) t.goal ≤ t.params.stepSize * 1.5) := by
    intro i
    simp [List.mem_filter, List.mem_range]
  cases hemp : ((List.range t.nodes.length).filter fun j =>
      decide (G.dist (pos (nd t.nodes j)) t.goal ≤ t.params.stepSize * 1.5)).isEmpty with
  | true =>
    have hcnil : ((List.range t.nodes.length).filter fun j =>
        decide (G.dist (pos (nd t.nodes j)) t.goal ≤ t.params.stepSize * 1.5)) = [] := by
      simpa using hemp
    have hnil : getPath G t = [] := by
      simp only [getPath]
      rw [hemp]
      rfl
    refine ⟨⟨fun _ i hi hband => ?_, fun _ => hnil⟩, fun hne => absurd hnil hne⟩
    have : i ∈ ((List.range t.nodes.length).filter fun j =>
        decide (G.dist (pos (nd t.nodes j)) t.goal ≤ t.params.stepSize * 1.5)) :=
      (hmem i).mpr ⟨hi, hband⟩
    rw [hcnil] at this
    exact absurd this (List.not_mem_nil i)
  | false =>
    have hcne : ((List.range t.nodes.length).filter fun j =>
        decide (G.dist (pos (nd t.nodes j)) t.goal ≤ t.params.stepSize * 1.5)) ≠ [] := by
      intro h0
      rw [h0] at hemp
      exact Bool.noConfusion hemp
    have hgp : getPath G t = (backtrace t.nodes t.nodes.length (selectMinCost t.nodes
        ((List.range t.nodes.length).filter fun j =>
          decide (G.dist (pos (nd t.nodes j)) t.goal ≤
            t.params.stepSize * 1.5)))).reverse := by
      simp only [getPath]
      rw [hemp]
      simp
    have hgpne : getPath G t ≠ [] := by
      rw [hgp]
      intro h0
      exact backtrace_ne_nil t.nodes t.nodes.length _ (List.reverse_eq_nil_iff.mp h0)
    obtain ⟨hbmem, hbmin⟩ := selectMinCost_spec t.nodes
      ((List.range t.nodes.length).filter fun j =>
        decide (G.dist (pos (nd t.nodes j)) t.goal ≤ t.params.stepSize * 1.5)) hcne
    obtain ⟨hblt, hbband⟩ := (hmem _).mp hbmem
    obtain ⟨k, hk, hit⟩ := rootSteps_lt_len h.toStructWF _ hblt
    obtain ⟨bh, bl, bc⟩ := backtrace_spec t.nodes h.rootPar k _ t.nodes.length hit
      (le_of_lt hk)
    refine ⟨⟨fun h0 => absurd h0 hgpne, fun hall => ?_⟩, fun _ => ?_⟩
    · exact absurd hbband (hall _ hblt)
    · refine ⟨selectMinCost t.nodes ((List.range t.nodes.length).filter fun j =>
        decide (G.dist (pos (nd t.nodes j)) t.goal ≤ t.params.stepSize * 1.5)),
        hblt, hbband, fun i hi hband => hbmin i ((hmem i).mpr ⟨hi, hband⟩), ?_, ?_, ?_⟩
      · rw [hgp, List.head?_reverse]
        exact bl
      · rw [hgp, List.getLast?_reverse]
        exact bh
      · rw [hgp, List.chain'_reverse]
        exact bc

theorem c8_get_path_witness :
    StoreWF taxiGeo freshStarTree.nodes ∧
    ((getPath taxiGeo freshStarTree = [] ↔
      ∀ i < freshStarTree.nodes.length,
        ¬ taxiGeo.dist (pos (nd freshStarTree.nodes i)) freshStarTree.goal ≤
          freshStarTree.params.stepSize * 1.5) ∧
    (getPath taxiGeo freshStarTree ≠ [] →
      ∃ b, b < freshStarTree.nodes.length ∧
        taxiGeo.dist (pos (nd freshStarTree.nodes b)) freshStarTree.goal ≤
          freshStarTree.params.stepSize * 1.5 ∧
        (∀ i < freshStarTree.nodes.length,
          taxiGeo.dist (pos (nd freshStarTree.nodes i)) freshStarTree.goal ≤
            freshStarTree.params.stepSize * 1.5 →
          (nd freshStarTree.nodes b).cost ≤ (nd freshStarTree.nodes i).cost) ∧
        (getPath taxiGeo freshStarTree).head? = some 0 ∧
        (getPath taxiGeo freshStarTree).getLast? = some b ∧
        List.Chain' (fun x y => (nd freshStarTree.nodes y).parentId = some x)
          (getPath taxiGeo freshStarTree))) := by
  have hwf : WF taxiGeo freshStarTree :=
    construct_WF taxiGeo 800 600 ⟨0, 0⟩ ⟨50, 0⟩ []
      { stepSize := 100, maxIterations := 100, goalBias := 0, searchRadius := 60 } .RRTStar
  exact ⟨hwf.store, c8_get_path taxiGeo freshStarTree hwf.store⟩

end RRT